import Mathlib

/-!
# yaegpe: gas price estimator

A shallow embedding of the `gasprice` package (`estimator.go`, `sampler.go`,
`bigintheap.go`) and the properties established about it.

Conventions of the embedding

* `common.Hash` is a natural number, `zeroHash` is `0`.
* `*big.Int` values are unbounded integers (`Int`); `big.Int.Div` is Euclidean
  division, which is `/` on `Int`.
* Go `int` is a 64 bit signed integer. Values are kept in `Int`; the places where
  the source can leave the 64 bit range are wrapped with `wrap64`.
* `float64` is modelled by `F64`: NaN, the two infinities, and the finite values,
  each finite value being the rational number it denotes. Comparisons are exact.
  The result of an operation (the product `t.Start * float64(nprices)`, the
  conversion `float64(nprices)`) is the exact result rounded to the nearest
  `float64` value, a tie going to the value with the even last bit (`F64.rnd`).
* A run-time panic is a result of its own (`Outcome.panic`, or `none` where the
  function has no error result).
* Goroutines, the mutex and the channels of the estimator are a transition
  system: every critical section is one atomic step.
-/

namespace Gasprice

/-! ## Basic data -/

/-- The type `common.Hash`. -/
abbrev Hash := Nat

/-- The value `zeroHash = common.Hash{}` of `tracker.go`. -/
def zeroHash : Hash := 0

/-- Values of the Go type `error` that occur in the package: the two package
level errors of `estimator.go` and any other error value, told apart by a code
(provider failures, context cancellation, ...). -/
inductive Error where
  | ErrBadTargets
  | ErrNoSample
  | other (code : Nat)
  deriving DecidableEq, Repr

/-- The three ways a Go call with an `error` result can end: it returns a value and
a nil error, it returns a non-nil error, or it panics. -/
inductive Outcome (α : Type) where
  | ok (v : α)
  | error (e : Error)
  | panic
  deriving DecidableEq, Repr

/-! ## float64 -/

/-- A `float64` value. -/
inductive F64 where
  | nan
  | negInf
  | posInf
  | fin (q : ℚ)
  deriving DecidableEq

/-- Rounding of a rational to the nearest integer, a tie going to the even one. -/
def roundEven (m : ℚ) : Int :=
  if m - ⌊m⌋ < 1 / 2 then ⌊m⌋
  else if 1 / 2 < m - ⌊m⌋ then ⌊m⌋ + 1
  else if ⌊m⌋ % 2 = 0 then ⌊m⌋ else ⌊m⌋ + 1

/-- The exponent of the spacing of the `float64` values around `x`: a value `x` with
`2 ^ e <= |x| < 2 ^ (e + 1)` has 53 significant bits, so the spacing is
`2 ^ (e - 52)`; below `2 ^ (-1022)` the spacing stays `2 ^ (-1074)`. -/
def quantumExp (x : ℚ) : Int := max (Int.log 2 |x|) (-1022) - 52

/-- The multiple of the spacing around `x` that is nearest to `x`, a tie going to the
even multiple. -/
def roundGrid (x : ℚ) : ℚ := (roundEven (x / 2 ^ quantumExp x) : ℚ) * 2 ^ quantumExp x

/-- The rational `q` is a `float64` value. -/
def isFloat64 (q : ℚ) : Prop := roundGrid q = q ∧ |q| < 2 ^ 1024

instance isFloat64.decidable (q : ℚ) : Decidable (isFloat64 q) := by
  unfold isFloat64
  infer_instance

namespace F64

/-- The `float64` result of an operation whose exact result is `x`: the nearest
`float64` value, a tie going to the even one, and an infinity when the rounded value
is beyond the largest `float64` value. -/
def rnd (x : ℚ) : F64 :=
  if (2 : ℚ) ^ 1024 ≤ roundGrid x then posInf
  else if roundGrid x ≤ -(2 : ℚ) ^ 1024 then negInf
  else fin (roundGrid x)

/-- The comparison `x < y` of two `float64` values: false as soon as one is NaN. -/
def lt : F64 → F64 → Bool
  | fin a, fin b => decide (a < b)
  | negInf, fin _ => true
  | negInf, posInf => true
  | fin _, posInf => true
  | _, _ => false

/-- The comparison `x <= y` of two `float64` values: false as soon as one is NaN. -/
def le : F64 → F64 → Bool
  | fin a, fin b => decide (a ≤ b)
  | negInf, negInf => true
  | negInf, fin _ => true
  | negInf, posInf => true
  | fin _, posInf => true
  | posInf, posInf => true
  | _, _ => false

/-- The product `x * y` of two `float64` values: the exact product of two finite
values is rounded. -/
def mul : F64 → F64 → F64
  | nan, _ => nan
  | _, nan => nan
  | fin a, fin b => rnd (a * b)
  | fin a, posInf => if a = 0 then nan else if 0 < a then posInf else negInf
  | fin a, negInf => if a = 0 then nan else if 0 < a then negInf else posInf
  | posInf, fin b => if b = 0 then nan else if 0 < b then posInf else negInf
  | negInf, fin b => if b = 0 then nan else if 0 < b then negInf else posInf
  | posInf, posInf => posInf
  | negInf, negInf => posInf
  | posInf, negInf => negInf
  | negInf, posInf => negInf

/-- Rounding of a rational toward zero. -/
def trunc (q : ℚ) : Int := if 0 ≤ q then ⌊q⌋ else ⌈q⌉

end F64

/-- Reduction of an integer to the range of a 64 bit signed integer. -/
def wrap64 (z : Int) : Int := (z + 2 ^ 63) % 2 ^ 64 - 2 ^ 63

/-- The conversion `int(x)` of a `float64`. A finite value is truncated toward zero.
When the truncated value does not fit in 64 bits, or `x` is NaN or infinite, the Go
specification leaves the result to the implementation: `cvt` supplies it. -/
def F64.toInt (cvt : F64 → Int) (x : F64) : Int :=
  match x with
  | F64.fin q =>
    if -(2 ^ 63) ≤ F64.trunc q ∧ F64.trunc q < 2 ^ 63 then F64.trunc q else wrap64 (cvt x)
  | _ => wrap64 (cvt x)

/-! ## bigintheap.go -/

/-- The method `bigIntHeap.Pop`. The result is the returned value with the heap left
behind; `none` is the panic of the slice expression `old[0 : n-1]` (or of the index
`old[n-1]`) on an empty heap. -/
def bigIntHeap.Pop (old : List Int) : Option (Int × List Int) :=
  let n : Int := old.length
  if n - 1 < 0 then none
  else
    let h := old.take (n - 1).toNat
    match old[(n - 1).toNat]? with
    | none => none
    | some value => some (value, h)

/-! ## estimator.go: data -/

/-- The struct `Target`. -/
structure Target where
  Start : F64
  End : F64
  deriving DecidableEq

/-- The part of `types.Header` the package reads. -/
structure Header where
  ParentHash : Hash
  deriving DecidableEq, Repr

/-- The struct `Sample` of `sampler.go`. A sample returned without error carries a
header. -/
structure Sample where
  header : Header
  prices : List Int
  deriving DecidableEq, Repr

/-- The struct `gasPricesResult`; a nil slice and a nil error are `none`. -/
structure gasPricesResult where
  prices : Option (List Int)
  err : Option Error
  deriving DecidableEq, Repr

/-- The fields of the struct `Estimator`, the tracker, the sampler and the mutex
apart. A channel of `chans` is named by the number it got when it was made. -/
structure Estimator where
  skip : Int
  history : Int
  targets : List Target
  lastHead : Hash
  lastPrices : Option (List Int)
  chans : List Nat
  deriving DecidableEq

/-- An implementation of the interface `Sampler`: `sample(ctx, hash)` reads and
updates a state of type `σ` and returns a sample or an error. -/
abbrev Sampler (σ : Type) := Hash → σ → Except Error Sample × σ

/-- The function `clonePrices`. -/
def clonePrices : List Int → List Int
  | [] => []
  | p :: src => p :: clonePrices src

/-! ## estimator.go: NewEstimator -/

/-- The condition `t.Start < 0 || t.End <= t.Start || t.End > 1`. -/
def badTarget (t : Target) : Bool :=
  t.Start.lt (F64.fin 0) || t.End.le t.Start || (F64.fin 1).lt t.End

/-- The loop `for _, t := range targets` of `NewEstimator`: `true` when it reaches
`return nil, ErrBadTargets`. -/
def targetsLoop : List Target → Bool
  | [] => false
  | t :: targets => if badTarget t then true else targetsLoop targets

/-- The function `NewEstimator`. The goroutine `e.listen` it starts calls
`GasPrices` on every signal of the tracker. -/
def NewEstimator (skip history : Int) (targets : List Target) : Except Error Estimator :=
  if targetsLoop targets then Except.error Error.ErrBadTargets
  else Except.ok
    { skip := skip, history := history, targets := targets,
      lastHead := zeroHash, lastPrices := none, chans := [] }

/-! ## estimator.go: estimate -/

/-- The loop `for i := 0; i < e.skip; i++ { }`: its body is empty. -/
def skipLoop : Nat → Hash → Hash
  | 0, tip => tip
  | n + 1, tip => skipLoop n tip

/-- The loop `for i := 0; i < e.history; i++` of `estimate`, with the number of
iterations left, the current `tip`, the `prices` collected so far and the state of
the sampler. -/
def historyLoop {σ : Type} (sampler : Sampler σ) :
    Nat → Hash → List Int → σ → Except Error (List Int) × σ
  | 0, _, prices, w => (Except.ok prices, w)
  | n + 1, tip, prices, w =>
    match sampler tip w with
    | (Except.error err, w1) => (Except.error err, w1)
    | (Except.ok sample, w1) =>
      historyLoop sampler n sample.header.ParentHash (prices ++ sample.prices) w1

/-- Lines 100 to 112 of `estimate`: the two loops that build the fee pool. -/
def walkPool {σ : Type} (sampler : Sampler σ) (e : Estimator) (head : Hash) (w : σ) :
    Except Error (List Int) × σ :=
  let tip := skipLoop e.skip.toNat head
  historyLoop sampler e.history.toNat tip [] w

/-- The call `sort.Sort(prices)`. With `Less(i, j)` being `h[i] < h[j]` it leaves the
values in ascending order; the library routine is represented by insertion sort. -/
def sortPrices (prices : List Int) : List Int :=
  prices.insertionSort (fun a b => a ≤ b)

/-- The loop `for j := start; j < end; j++ { sum.Add(sum, prices[j]) }`, with the
number of iterations left; `none` is the panic of an index out of range. -/
def sumLoop (prices : List Int) : Nat → Int → Int → Option Int
  | 0, _, sum => some sum
  | k + 1, j, sum =>
    if j < 0 then none
    else
      match prices[j.toNat]? with
      | none => none
      | some p => sumLoop prices k (j + 1) (sum + p)

/-- The body of the loop over the targets in `estimate`, on the sorted `prices`;
`none` is a panic (index out of range, division by zero). -/
def bucket (cvt : F64 → Int) (prices : List Int) (t : Target) : Option Int :=
  let nprices : F64 := F64.rnd (prices.length : ℚ)
  let start := F64.toInt cvt (t.Start.mul nprices)
  let end0 := F64.toInt cvt (t.End.mul nprices)
  let end1 := if wrap64 (end0 - start) = 0 then wrap64 (end0 + 1) else end0
  match sumLoop prices (end1 - start).toNat start 0 with
  | none => none
  | some sum =>
    let n := wrap64 (end1 - start)
    if n = 0 then none else some (sum / n)

/-- The value of `start` in the body of the loop over the targets in `estimate`. -/
def bucketStart (cvt : F64 → Int) (prices : List Int) (t : Target) : Int :=
  F64.toInt cvt (t.Start.mul (F64.rnd (prices.length : ℚ)))

/-- The value of `end` in the body of the loop over the targets in `estimate`, after
`if end-start == 0 { end += 1 }`. -/
def bucketEnd (cvt : F64 → Int) (prices : List Int) (t : Target) : Int :=
  let end0 := F64.toInt cvt (t.End.mul (F64.rnd (prices.length : ℚ)))
  if wrap64 (end0 - bucketStart cvt prices t) = 0 then wrap64 (end0 + 1) else end0

/-- The loop `for i, t := range e.targets` of `estimate`. -/
def estimatesLoop (cvt : F64 → Int) (prices : List Int) : List Target → Option (List Int)
  | [] => some []
  | t :: targets =>
    match bucket cvt prices t with
    | none => none
    | some v =>
      match estimatesLoop cvt prices targets with
      | none => none
      | some vs => some (v :: vs)

/-- The method `Estimator.estimate`. -/
def Estimator.estimate {σ : Type} (cvt : F64 → Int) (sampler : Sampler σ) (e : Estimator)
    (head : Hash) (w : σ) : Outcome (List Int) × σ :=
  match walkPool sampler e head w with
  | (Except.error err, w1) => (Outcome.error err, w1)
  | (Except.ok prices, w1) =>
    if prices.length = 0 then (Outcome.error Error.ErrNoSample, w1)
    else
      match estimatesLoop cvt (sortPrices prices) e.targets with
      | none => (Outcome.panic, w1)
      | some estimates => (Outcome.ok estimates, w1)

/-! ## estimator.go: the coalescing of requests -/

/-- The state shared by the goroutines of one estimator: the fields of the struct,
the state of the sampler, the heads of the `broadcastGasPrices` goroutines that were
started and have not finished, the values sent on the result channels (a channel is
closed right after its value), and the number of channels made so far. -/
structure World (σ : Type) where
  e : Estimator
  sampler : σ
  running : List Hash
  sent : List (Nat × gasPricesResult)
  nextChan : Nat
  deriving DecidableEq

/-- The method `Estimator.asyncGasPrices`, as one step under `e.lock`. It returns
the channel it made. -/
def asyncGasPrices {σ : Type} (head : Hash) (w : World σ) : Nat × World σ :=
  let ch := w.nextChan
  let w := { w with nextChan := w.nextChan + 1 }
  let lastHead := w.e.lastHead
  let lastPrices := w.e.lastPrices
  if lastHead = head ∧ lastPrices ≠ none then
    (ch, { w with sent := w.sent ++ [(ch, { prices := lastPrices.map clonePrices, err := none })] })
  else
    let chans := w.e.chans ++ [ch]
    let w := { w with e := { w.e with chans := chans } }
    if lastHead ≠ head then
      (ch, { w with
              e := { w.e with lastHead := head, lastPrices := none },
              running := w.running ++ [head] })
    else (ch, w)

/-- The method `Estimator.broadcastGasPrices`: the call of `estimate`, then the
section under `e.lock`. `none` is the panic of `estimate`, which ends the program. -/
def broadcastGasPrices {σ : Type} (cvt : F64 → Int) (sampler : Sampler σ) (head : Hash)
    (w : World σ) : Option (World σ) :=
  match Estimator.estimate cvt sampler w.e head w.sampler with
  | (Outcome.panic, _) => none
  | (Outcome.error err, s1) =>
    some { w with
            sampler := s1,
            sent := w.sent ++ w.e.chans.map (fun ch => (ch, { prices := none, err := some err })),
            e := { w.e with chans := [] } }
  | (Outcome.ok prices, s1) =>
    if w.e.lastHead ≠ head then some { w with sampler := s1 }
    else
      some { w with
              sampler := s1,
              sent := w.sent ++ w.e.chans.map
                (fun ch => (ch, { prices := some (clonePrices prices), err := none })),
              e := { w.e with lastPrices := some prices, chans := [] } }

/-- How a call of `GasPrices` goes on: it has returned `(prices, err)`, or it waits
in the `select` for the channel `ch` or for `ctx.Done()`. -/
inductive Reply where
  | returned (prices : Option (List Int)) (err : Option Error)
  | selecting (ch : Nat)
  deriving DecidableEq, Repr

/-- The method `Estimator.GasPrices` up to its `select`; `trackerHead` is what
`e.tracker.head(ctx)` returns. -/
def GasPrices {σ : Type} (trackerHead : Except Error Hash) (w : World σ) : Reply × World σ :=
  match trackerHead with
  | Except.error err => (Reply.returned none (some err), w)
  | Except.ok head =>
    let lastHead := w.e.lastHead
    let lastPrices := w.e.lastPrices.map clonePrices
    if lastHead = head ∧ lastPrices ≠ none then (Reply.returned lastPrices none, w)
    else
      let r := asyncGasPrices head w
      (Reply.selecting r.1, r.2)

/-- The steps of the estimator: a request `asyncGasPrices(head)`, the completion of
a running `broadcastGasPrices(head)`, and a change of the state of the sampler by
its environment (new blocks, provider failures, other users of the sampler). -/
inductive Event (σ : Type) where
  | request (head : Hash)
  | complete (head : Hash)
  | env (s : σ)

/-- One step. `none`: the step is not possible (no such goroutine is running) or
the program ended in a panic. -/
def step {σ : Type} (cvt : F64 → Int) (sampler : Sampler σ) (w : World σ) :
    Event σ → Option (World σ)
  | Event.request head => some (asyncGasPrices head w).2
  | Event.complete head =>
    if head ∈ w.running then
      (broadcastGasPrices cvt sampler head w).map
        (fun w1 => { w1 with running := w1.running.erase head })
    else none
  | Event.env s => some { w with sampler := s }

/-- A sequence of steps. -/
def run {σ : Type} (cvt : F64 → Int) (sampler : Sampler σ) :
    World σ → List (Event σ) → Option (World σ)
  | w, [] => some w
  | w, ev :: tr => (step cvt sampler w ev).bind (fun w1 => run cvt sampler w1 tr)

/-- The state right after the estimator `e` was made: nothing runs, no channel. -/
def World.start {σ : Type} (e : Estimator) (s : σ) : World σ :=
  { e := e, sampler := s, running := [], sent := [], nextChan := 0 }

/-- The heads of the requests of a sequence of steps, in order. -/
def requestedHeads {σ : Type} : List (Event σ) → List Hash
  | [] => []
  | Event.request head :: tr => head :: requestedHeads tr
  | _ :: tr => requestedHeads tr

/-- No head comes back: once a request for another head has followed a request for
`h`, no later request is for `h`. -/
def neverReturns : List Hash → Bool
  | [] => true
  | h :: hs => !((hs.dropWhile (fun x => x == h)).contains h) && neverReturns hs

/-! ## sampler.go: fetch -/

/-- What `fetch` reads of a transaction: the result of `tx.EffectiveGasTip(baseFee)`
and the result of `types.NewLondonSigner(tx.ChainId()).Sender(tx)`. -/
structure Tx where
  tip : Except Error Int
  sender : Except Error Nat

/-- What `fetch` reads of a block. -/
structure Block where
  header : Header
  baseFee : Int
  coinbase : Nat
  txs : List Tx

/-- The fields `size` and `minPrice` of the struct `MinimumSampler`. -/
structure MinimumSampler where
  size : Int
  minPrice : Int

/-- The loop `for _, tx := range txs` of `fetch`, with `pricesHeap` as accumulator. -/
def txLoop (minPrice baseFee : Int) (coinbase : Nat) : List Tx → List Int → Except Error (List Int)
  | [], pricesHeap => Except.ok pricesHeap
  | tx :: txs, pricesHeap =>
    match tx.tip with
    | Except.error err => Except.error err
    | Except.ok tip =>
      let price := baseFee + tip
      if price < minPrice then txLoop minPrice baseFee coinbase txs pricesHeap
      else
        match tx.sender with
        | Except.error err => Except.error err
        | Except.ok sender =>
          if sender = coinbase then txLoop minPrice baseFee coinbase txs pricesHeap
          else txLoop minPrice baseFee coinbase txs (pricesHeap ++ [price])

set_option linter.unusedVariables false in
/-- The loop `for len(prices) < s.size && pricesHeap.Len() > 0` of `fetch`; `none`
is a panic of `Pop`. -/
def popLoop (size : Int) (prices pricesHeap : List Int) : Option (List Int) :=
  if (prices.length : Int) < size ∧ pricesHeap.length > 0 then
    match hp : bigIntHeap.Pop pricesHeap with
    | none => none
    | some (price, rest) => popLoop size (prices ++ [price]) rest
  else some prices
termination_by pricesHeap.length
decreasing_by
  simp only [bigIntHeap.Pop] at hp
  split at hp
  · exact absurd hp (by simp)
  · split at hp
    · exact absurd hp (by simp)
    · simp only [Option.some.injEq, Prod.mk.injEq] at hp
      rw [← hp.2, List.length_take]
      omega

/-- The method `MinimumSampler.fetch`; `block` is what `s.provider.BlockByHash`
returns. `make([]*big.Int, 0, s.size)` panics on a negative size. -/
def MinimumSampler.fetch (s : MinimumSampler) (block : Except Error Block) : Outcome Sample :=
  match block with
  | Except.error err => Outcome.error err
  | Except.ok block =>
    match txLoop s.minPrice block.baseFee block.coinbase block.txs [] with
    | Except.error err => Outcome.error err
    | Except.ok pricesHeap =>
      if s.size < 0 then Outcome.panic
      else
        match popLoop s.size [] pricesHeap with
        | none => Outcome.panic
        | some prices => Outcome.ok { header := block.header, prices := prices }

/-! ## The walk and the buckets as the specification words them -/

/-- The fee lists of a sequence of samples, one after the other. -/
def feePool : List Sample → List Int
  | [] => []
  | s :: samples => s.prices ++ feePool samples

/-- `Walk sampler n tip w samples tip1 w1`: starting at `tip` with the sampler in
state `w`, `n` calls of the sampler succeed, each one for the parent of the block
before; they return `samples`, and leave the walk at `tip1` and the sampler in state
`w1`. -/
inductive Walk {σ : Type} (sampler : Sampler σ) :
    Nat → Hash → σ → List Sample → Hash → σ → Prop where
  | done (tip : Hash) (w : σ) : Walk sampler 0 tip w [] tip w
  | next {n : Nat} {tip tip1 : Hash} {w w1 w2 : σ} {sample : Sample} {samples : List Sample} :
      sampler tip w = (Except.ok sample, w1) →
      Walk sampler n sample.header.ParentHash w1 samples tip1 w2 →
      Walk sampler (n + 1) tip w (sample :: samples) tip1 w2

/-- The estimate of the specification for one target on the sorted pool `S`: with
`N` the size of the pool, `a = floor(start * N)`, `b = floor(end * N)`, and `b`
replaced by `a + 1` when `a = b`, the value `floor(sum(S[a..b)) / (b - a))`. -/
def specEstimate (S : List Int) (start stop : ℚ) : Int :=
  let N := S.length
  let a := ⌊start * N⌋₊
  let b0 := ⌊stop * N⌋₊
  let b := if a = b0 then a + 1 else b0
  ⌊((((S.drop a).take (b - a)).sum : Int) : ℚ) / ((b - a : Nat) : ℚ)⌋

/-- The estimate of one target on the sorted pool `S` with the products rounded as
`float64` does: with `N` the size of the pool, `a = floor(fl(start * N))`,
`b = floor(fl(end * N))`, where `fl` rounds the exact product to the nearest
`float64` value, and `b` replaced by `a + 1` when `a = b`, the value
`floor(sum(S[a..b)) / (b - a))`. -/
def specEstimate64 (S : List Int) (start stop : ℚ) : Int :=
  let N := S.length
  let a := ⌊roundGrid (start * N)⌋₊
  let b0 := ⌊roundGrid (stop * N)⌋₊
  let b := if a = b0 then a + 1 else b0
  ⌊((((S.drop a).take (b - a)).sum : Int) : ℚ) / ((b - a : Nat) : ℚ)⌋

/-- The bounds of a valid target: two `float64` values with `0 <= start < end <= 1`. -/
def validBounds (p : ℚ × ℚ) : Prop :=
  isFloat64 p.1 ∧ isFloat64 p.2 ∧ 0 ≤ p.1 ∧ p.1 < p.2 ∧ p.2 ≤ 1

instance validBounds.decidable (p : ℚ × ℚ) : Decidable (validBounds p) := by
  unfold validBounds
  infer_instance

/-- The target with the finite bounds `p.1` and `p.2`. -/
def Target.ofRat (p : ℚ × ℚ) : Target := { Start := F64.fin p.1, End := F64.fin p.2 }

/-- The validity of a target: `0 <= start < end <= 1`. -/
def Target.valid (t : Target) : Prop :=
  ∃ a b : ℚ, t.Start = F64.fin a ∧ t.End = F64.fin b ∧ 0 ≤ a ∧ a < b ∧ b ≤ 1

/-- `FirstFailure sampler n tip w err w1`: in a walk of at most `n` sampler calls from
`tip`, the first calls succeed and the next one, still among the `n`, fails with
`err`, leaving the sampler in state `w1`. -/
def FirstFailure {σ : Type} (sampler : Sampler σ) (n : Nat) (tip : Hash) (w : σ)
    (err : Error) (w1 : σ) : Prop :=
  ∃ (k : Nat) (samples : List Sample) (tip1 : Hash) (w2 : σ),
    k < n ∧ Walk sampler k tip w samples tip1 w2 ∧ sampler tip1 w2 = (Except.error err, w1)

/-! ## The invariant of the coalescing -/

/-- The invariant of the coalescing, for a state `w` and the heads `hs` of the
requests still to come: no head runs twice, no head comes back in `hs`, and a
running head is requested again only while it is still `lastHead`. -/
def Coalesced {σ : Type} (w : World σ) (hs : List Hash) : Prop :=
  w.running.Nodup ∧ neverReturns hs = true
    ∧ ∀ h ∈ w.running, h ∉ hs.dropWhile (fun x => x == w.e.lastHead)

/-- The bookkeeping of the channels in a state: the channels that got a value and
the channels of `chans` are pairwise distinct, and all of them were made. -/
def ChannelsDistinct {σ : Type} (w : World σ) : Prop :=
  (w.sent.map Prod.fst ++ w.e.chans).Nodup
    ∧ ∀ ch ∈ w.sent.map Prod.fst ++ w.e.chans, ch < w.nextChan

/-! ## The data of estimator_test.go -/

/-- The error `ErrBlockNotFound` of estimator_test.go. -/
def ErrBlockNotFound : Error := Error.other 1

/-- The sampler `samplerMock` of estimator_test.go: its state is `count`; each
sample is listed with the hash of its header. -/
def samplerMock (samples : List (Hash × Sample)) : Sampler Nat := fun hash count =>
  match samples.find? (fun s => s.1 == hash) with
  | some s => (Except.ok s.2, count + 1)
  | none => (Except.error ErrBlockNotFound, count + 1)

/-- The three samples of `TestEstimatorGasPrices`; their headers have the hashes
100, 101 and 102. -/
def testSamples : List (Hash × Sample) :=
  [ (100, { header := { ParentHash := zeroHash }, prices := [30, 20, 40, 30] }),
    (101, { header := { ParentHash := 100 }, prices := [40, 30, 10] }),
    (102, { header := { ParentHash := 101 }, prices := [35, 25, 45, 35] }) ]

/-- The estimator of `TestEstimatorGasPrices`. -/
def testEstimator : Estimator :=
  { skip := 1, history := 2,
    targets := [(0, 1 / 2), (1 / 2, 1), (0, 1)].map Target.ofRat,
    lastHead := zeroHash, lastPrices := none, chans := [] }

/-- One block with the pool of the example of the specification. -/
def exampleSamples : List (Hash × Sample) :=
  [ (7, { header := { ParentHash := zeroHash },
          prices := [30, 10, 45, 20, 40, 30, 35, 40] }) ]

/-- An estimator with the two targets of the example of the specification. -/
def exampleEstimator : Estimator :=
  { skip := 0, history := 1,
    targets := [(0, 1 / 2), (1 / 2, 1)].map Target.ofRat,
    lastHead := zeroHash, lastPrices := none, chans := [] }

/-- The `float64` value of the Go constant `0.3`: `5404319552844595 / 2 ^ 54`. -/
def float03 : ℚ := 5404319552844595 / 2 ^ 54

/-- The `float64` value of the Go constant `0.6`: `5404319552844595 / 2 ^ 53`. -/
def float06 : ℚ := 5404319552844595 / 2 ^ 53

/-- The estimator of `TestEstimatorGasPrices` with the targets `estimatorTarget` of
main.go: `{0, 0.3}`, `{0.3, 0.6}`, `{0.6, 1}`. -/
def mainTargetsEstimator : Estimator :=
  { skip := 1, history := 2,
    targets := [(0, float03), (float03, float06), (float06, 1)].map Target.ofRat,
    lastHead := zeroHash, lastPrices := none, chans := [] }

/-- A chain of two blocks, of hashes 201 and 202, with the five fees 1, 10, 100, 1000
and 10000. -/
def decadeSamples : List (Hash × Sample) :=
  [ (201, { header := { ParentHash := zeroHash }, prices := [10, 1000] }),
    (202, { header := { ParentHash := 201 }, prices := [100, 1, 10000] }) ]

/-- The `float64` value of the Go constant `0.58`: `5224175567749775 / 2 ^ 53`. -/
def float058 : ℚ := 5224175567749775 / 2 ^ 53

/-- A sorted pool of 50 fees: 28 fees of 10 and 22 fees of 300. -/
def fiftyPool : List Int :=
  [10, 10, 10, 10, 10, 10, 10, 10, 10, 10, 10, 10, 10, 10,
   10, 10, 10, 10, 10, 10, 10, 10, 10, 10, 10, 10, 10, 10,
   300, 300, 300, 300, 300, 300, 300, 300, 300, 300, 300,
   300, 300, 300, 300, 300, 300, 300, 300, 300, 300, 300]

/-- One block, of hash 301, with the fees of `fiftyPool`. -/
def fiftySamples : List (Hash × Sample) :=
  [ (301, { header := { ParentHash := zeroHash }, prices := fiftyPool }) ]

/-- An estimator with the two targets `{0, 0.58}`, `{0.58, 1}`. -/
def fiftyEstimator : Estimator :=
  { skip := 0, history := 1,
    targets := [(0, float058), (float058, 1)].map Target.ofRat,
    lastHead := zeroHash, lastPrices := none, chans := [] }

/-- The state of the estimator of the test after a request for the head 101 and a
request for the head 7, which the sampler does not know: both computations run, the
channels 0 and 1 wait. -/
def pendingWorld : World Nat :=
  { e := { testEstimator with lastHead := 7, chans := [0, 1] },
    sampler := 0, running := [101, 7], sent := [], nextChan := 2 }

/-! ## The qualifying transactions as the specification words them -/

/-- The fee of a transaction that qualifies for the sample: base fee plus tip, when
this fee is at least `minPrice` and the sender is not the coinbase of the block;
`none` for a transaction that does not qualify. -/
def qualifyingFee (minPrice baseFee : Int) (coinbase : Nat) (tx : Tx) : Option Int :=
  match tx.tip, tx.sender with
  | Except.ok tip, Except.ok sender =>
    if minPrice ≤ baseFee + tip ∧ sender ≠ coinbase then some (baseFee + tip) else none
  | _, _ => none

/-! ## Further inputs -/

/-- A block with a transaction below the floor 8 (fee 6), a transaction sent by the
coinbase 9, and two qualifying transactions, of fees 10 and 20. -/
def mixedBlock : Block :=
  { header := { ParentHash := 77 }, baseFee := 5, coinbase := 9,
    txs := [{ tip := Except.ok 1, sender := Except.ok 1 },
            { tip := Except.ok 5, sender := Except.ok 9 },
            { tip := Except.ok 5, sender := Except.ok 1 },
            { tip := Except.ok 15, sender := Except.ok 2 }] }


/-- A block with two qualifying transactions, of fees 10 and 20. -/
def twoFeeBlock : Block :=
  { header := { ParentHash := zeroHash }, baseFee := 5, coinbase := 0,
    txs := [{ tip := Except.ok 5, sender := Except.ok 1 },
            { tip := Except.ok 15, sender := Except.ok 2 }] }

/-- The sampler that fails with `ErrNoSample` on every hash. -/
def noSampleSampler : Sampler Unit := fun _ w => (Except.error Error.ErrNoSample, w)

/-- A chain of two blocks without fees, of hashes 1 and 2. -/
def emptySamples : List (Hash × Sample) :=
  [ (1, { header := { ParentHash := zeroHash }, prices := [] }),
    (2, { header := { ParentHash := 1 }, prices := [] }) ]

/-! ## Lemmas on the loops -/

theorem skipLoop_eq (n : Nat) (tip : Hash) : skipLoop n tip = tip := by
  induction n with
  | zero => rfl
  | succ n ih => simpa [skipLoop] using ih

theorem clonePrices_eq (src : List Int) : clonePrices src = src := by
  induction src with
  | nil => rfl
  | cons p src ih => simp [clonePrices, ih]

theorem historyLoop_of_walk {σ : Type} (sampler : Sampler σ) {n : Nat} {tip tip1 : Hash}
    {w w1 : σ} {samples : List Sample} (h : Walk sampler n tip w samples tip1 w1)
    (acc : List Int) :
    historyLoop sampler n tip acc w = (Except.ok (acc ++ feePool samples), w1) := by
  induction h generalizing acc with
  | done tip w => simp [historyLoop, feePool]
  | next hs _ ih =>
    simp only [historyLoop, hs, feePool]
    rw [ih, List.append_assoc]

theorem walk_of_historyLoop {σ : Type} (sampler : Sampler σ) (n : Nat) (tip : Hash)
    (acc : List Int) (w w1 : σ) (P : List Int)
    (h : historyLoop sampler n tip acc w = (Except.ok P, w1)) :
    ∃ samples tip1, Walk sampler n tip w samples tip1 w1 ∧ P = acc ++ feePool samples := by
  induction n generalizing tip acc w with
  | zero =>
    simp only [historyLoop, Prod.mk.injEq, Except.ok.injEq] at h
    exact ⟨[], tip, h.2 ▸ Walk.done tip w, by simp [feePool, h.1]⟩
  | succ n ih =>
    simp only [historyLoop] at h
    rcases hs : sampler tip w with ⟨r, w2⟩
    rw [hs] at h
    cases r with
    | error err => simp at h
    | ok sample =>
      simp only at h
      obtain ⟨samples, tip1, hw, hP⟩ := ih _ _ _ h
      exact ⟨sample :: samples, tip1, Walk.next hs hw, by simp [feePool, hP]⟩

theorem sortPrices_eq_of_sorted_perm (P S : List Int) (hS : S.Sorted (fun a b => a ≤ b))
    (hperm : S.Perm P) : sortPrices P = S := by
  unfold sortPrices
  apply List.eq_of_perm_of_sorted (r := fun a b : Int => a ≤ b)
  · exact (List.perm_insertionSort _ P).trans hperm.symm
  · exact List.sorted_insertionSort _ P
  · exact hS

theorem sumLoop_eq (prices : List Int) (k j : Nat) (sum : Int) (h : j + k ≤ prices.length) :
    sumLoop prices k (j : Int) sum = some (sum + ((prices.drop j).take k).sum) := by
  induction k generalizing j sum with
  | zero => simp [sumLoop]
  | succ k ih =>
    have hj : j < prices.length := by omega
    have hneg : ¬ ((j : Int) < 0) := by omega
    simp only [sumLoop, hneg, if_false, Int.toNat_ofNat, List.getElem?_eq_getElem hj]
    have := ih (j + 1) (sum + prices[j]) (by omega)
    rw [Nat.cast_add, Nat.cast_one] at this
    rw [this, List.drop_eq_getElem_cons hj, List.take_succ_cons, List.sum_cons]
    simp [add_assoc]

/-- The loop of the sum panics when it runs past the last fee. -/
theorem sumLoop_eq_none (prices : List Int) (k : Nat) (j acc : Int) (hj : 0 ≤ j)
    (hle : j.toNat ≤ prices.length) (hlt : prices.length < j.toNat + k) :
    sumLoop prices k j acc = none := by
  induction k generalizing j acc with
  | zero => omega
  | succ k ih =>
    unfold sumLoop
    rw [if_neg (by omega)]
    rcases Nat.lt_or_ge j.toNat prices.length with h | h
    · rw [List.getElem?_eq_getElem h]
      exact ih (j + 1) _ (by omega) (by omega) (by omega)
    · rw [List.getElem?_eq_none h]

theorem wrap64_eq (z : Int) (h1 : -(2 ^ 63) ≤ z) (h2 : z < 2 ^ 63) : wrap64 z = z := by
  unfold wrap64
  rw [Int.emod_eq_of_lt (by omega) (by omega)]
  omega

/-! ## Lemmas on the rounding -/

theorem roundEven_intCast (n : Int) : roundEven (n : ℚ) = n := by
  simp [roundEven]

theorem floor_le_roundEven (m : ℚ) : ⌊m⌋ ≤ roundEven m := by
  unfold roundEven
  split_ifs <;> omega

theorem roundEven_le_floor_add_one (m : ℚ) : roundEven m ≤ ⌊m⌋ + 1 := by
  unfold roundEven
  split_ifs <;> omega

theorem roundEven_mono {a b : ℚ} (h : a ≤ b) : roundEven a ≤ roundEven b := by
  have hf : ⌊a⌋ ≤ ⌊b⌋ := Int.floor_mono h
  rcases lt_or_eq_of_le hf with hlt | heq
  · calc roundEven a ≤ ⌊a⌋ + 1 := roundEven_le_floor_add_one a
      _ ≤ ⌊b⌋ := hlt
      _ ≤ roundEven b := floor_le_roundEven b
  · have hfr : a - ⌊a⌋ ≤ b - ⌊b⌋ := by
      rw [heq]; linarith
    unfold roundEven
    rw [heq]
    split_ifs <;> first | omega | (exfalso; linarith)

theorem roundEven_eq_of_abs_lt (m : ℚ) (n : Int) (h : |m - n| < 1 / 2) : roundEven m = n := by
  rw [abs_lt] at h
  obtain ⟨h1, h2⟩ := h
  by_cases hle : (n : ℚ) ≤ m
  · have hfl : ⌊m⌋ = n := by
      rw [Int.floor_eq_iff]
      constructor
      · exact hle
      · linarith
    unfold roundEven
    rw [hfl, if_pos (by linarith)]
  · have hfl : ⌊m⌋ = n - 1 := by
      rw [Int.floor_eq_iff]
      push_cast
      constructor <;> linarith
    unfold roundEven
    rw [hfl]
    push_cast
    rw [if_neg (by linarith), if_pos (by linarith)]
    omega

theorem roundEven_lt_of_lt_sub_half (m : ℚ) (n : Int) (h : m < n - 1 / 2) : roundEven m < n := by
  have hfl : ⌊m⌋ ≤ n - 1 := by
    have : ⌊m⌋ < n := by
      rw [Int.floor_lt]; linarith
    omega
  rcases lt_or_eq_of_le hfl with hlt | heq
  · have := roundEven_le_floor_add_one m
    omega
  · unfold roundEven
    rw [heq]
    push_cast
    rw [if_pos (by linarith)]
    omega


theorem log_two_eq (x : ℚ) (k : Int) (hx : 0 < x) (h1 : (2 : ℚ) ^ k ≤ x)
    (h2 : x < (2 : ℚ) ^ (k + 1)) : Int.log 2 x = k := by
  have a := (Int.zpow_le_iff_le_log (b := 2) (by norm_num) hx (x := k)).mp (by simpa using h1)
  have b := (Int.lt_zpow_iff_log_lt (b := 2) (by norm_num) hx (x := k + 1)).mp
    (by simpa using h2)
  omega

theorem zpow_log_le (x : ℚ) (hx : 0 < x) : (2 : ℚ) ^ Int.log 2 x ≤ x := by
  simpa using Int.zpow_log_le_self (b := 2) (by norm_num) hx

theorem lt_zpow_log_succ (x : ℚ) : x < (2 : ℚ) ^ (Int.log 2 x + 1) := by
  simpa using Int.lt_zpow_succ_log_self (b := 2) (by norm_num) x

theorem roundGrid_zero : roundGrid 0 = 0 := by
  simp [roundGrid, roundEven]

/-- The integers `n` of absolute value below `2 ^ 53`, scaled by a power of two that
is not below the smallest spacing, are fixed by the rounding. -/
theorem roundGrid_scaled_int (n j : Int) (hn : |n| < 2 ^ 53) (hj : -1074 ≤ j) :
    roundGrid ((n : ℚ) * 2 ^ j) = (n : ℚ) * 2 ^ j := by
  by_cases h0 : n = 0
  · subst h0
    simp [roundGrid_zero]
  have hpow : (0 : ℚ) < 2 ^ j := by positivity
  have hxpos : 0 < |(n : ℚ) * 2 ^ j| := by
    rw [abs_pos]
    exact mul_ne_zero (by exact_mod_cast h0) (ne_of_gt hpow)
  have hlt : |(n : ℚ) * 2 ^ j| < (2 : ℚ) ^ (53 + j) := by
    rw [abs_mul, abs_of_pos hpow, zpow_add₀ (by norm_num : (2 : ℚ) ≠ 0)]
    apply mul_lt_mul_of_pos_right _ hpow
    have : ((|n| : Int) : ℚ) < ((2 ^ 53 : Int) : ℚ) := by exact_mod_cast hn
    rw [Int.cast_abs] at this
    calc |(n : ℚ)| < ((2 ^ 53 : Int) : ℚ) := this
      _ = (2 : ℚ) ^ (53 : Int) := by norm_num
  have hlog : Int.log 2 |(n : ℚ) * 2 ^ j| < 53 + j :=
    (Int.lt_zpow_iff_log_lt (b := 2) (by norm_num) hxpos).mp (by simpa using hlt)
  have hq : quantumExp ((n : ℚ) * 2 ^ j) ≤ j := by
    unfold quantumExp
    rcases max_cases (Int.log 2 |(n : ℚ) * 2 ^ j|) (-1022) with ⟨h, -⟩ | ⟨h, -⟩ <;> rw [h] <;> omega
  unfold roundGrid
  generalize quantumExp ((n : ℚ) * 2 ^ j) = q at hq
  obtain ⟨d, hd⟩ : ∃ d : Nat, j = q + d := ⟨(j - q).toNat, by omega⟩
  have hdiv : (n : ℚ) * 2 ^ j / 2 ^ q = ((n * 2 ^ d : Int) : ℚ) := by
    rw [hd, zpow_add₀ (by norm_num : (2 : ℚ) ≠ 0), zpow_natCast]
    have hq0 : (2 : ℚ) ^ q ≠ 0 := by positivity
    field_simp
    ring
  rw [hdiv, roundEven_intCast, hd, zpow_add₀ (by norm_num : (2 : ℚ) ≠ 0), zpow_natCast]
  push_cast
  ring

theorem roundGrid_natCast (N : Nat) (hN : N < 2 ^ 53) : roundGrid (N : ℚ) = (N : ℚ) := by
  have h := roundGrid_scaled_int (N : Int) 0 (by
    rw [abs_of_nonneg (Int.ofNat_nonneg N)]
    exact_mod_cast hN) (by norm_num)
  simpa using h

theorem roundGrid_nonneg (x : ℚ) (hx : 0 ≤ x) : 0 ≤ roundGrid x := by
  unfold roundGrid
  have hpow : (0 : ℚ) < 2 ^ quantumExp x := by positivity
  have hm : (0 : ℚ) ≤ x / 2 ^ quantumExp x := div_nonneg hx hpow.le
  have h0 : (0 : Int) ≤ roundEven (x / 2 ^ quantumExp x) := by
    have := roundEven_mono hm
    rwa [show ((0 : ℚ)) = ((0 : Int) : ℚ) by norm_num, roundEven_intCast] at this
  exact mul_nonneg (by exact_mod_cast h0) hpow.le


theorem roundGrid_eq_of_log (x : ℚ) (k : Int) (hx : 0 < x) (h1 : (2 : ℚ) ^ k ≤ x)
    (h2 : x < (2 : ℚ) ^ (k + 1)) (hk : -1022 ≤ k) :
    roundGrid x = (roundEven (x / 2 ^ (k - 52)) : ℚ) * 2 ^ (k - 52) := by
  have hq : quantumExp x = k - 52 := by
    unfold quantumExp
    rw [abs_of_pos hx, log_two_eq x k hx h1 h2, max_eq_left hk]
  unfold roundGrid
  rw [hq]

/-- The rounding is monotone on the rationals that are not negative. -/
theorem roundGrid_mono {a b : ℚ} (ha : 0 ≤ a) (hab : a ≤ b) : roundGrid a ≤ roundGrid b := by
  rcases eq_or_lt_of_le ha with h0 | hpos
  · rw [← h0, roundGrid_zero]
    exact roundGrid_nonneg b (le_trans ha hab)
  have hbpos : 0 < b := lt_of_lt_of_le hpos hab
  have hlog : Int.log 2 a ≤ Int.log 2 b := Int.log_mono_right hpos hab
  have hqa : quantumExp a = max (Int.log 2 a) (-1022) - 52 := by
    unfold quantumExp; rw [abs_of_pos hpos]
  have hqb : quantumExp b = max (Int.log 2 b) (-1022) - 52 := by
    unfold quantumExp; rw [abs_of_pos hbpos]
  have hqle : quantumExp a ≤ quantumExp b := by
    rw [hqa, hqb]
    have := max_le_max hlog (le_refl (-1022 : Int))
    omega
  rcases eq_or_lt_of_le hqle with heq | hlt
  · unfold roundGrid
    rw [heq]
    have hpow : (0 : ℚ) < 2 ^ quantumExp b := by positivity
    have hm : a / 2 ^ quantumExp b ≤ b / 2 ^ quantumExp b :=
      div_le_div_of_nonneg_right hab hpow.le
    have := roundEven_mono hm
    exact mul_le_mul_of_nonneg_right (by exact_mod_cast this) hpow.le
  · -- different spacings: a power of two lies between the two rounded values
    have hbl : quantumExp b = Int.log 2 b - 52 := by
      rw [hqb]
      rcases max_cases (Int.log 2 b) (-1022) with ⟨h, -⟩ | ⟨h, h2⟩
      · rw [h]
      · exfalso
        rw [hqa, hqb, h] at hlt
        have := le_max_right (Int.log 2 a) (-1022)
        omega
    have hal : Int.log 2 a + 1 ≤ quantumExp a + 53 := by
      rw [hqa]
      have := le_max_left (Int.log 2 a) (-1022)
      omega
    have hpa : (0 : ℚ) < 2 ^ quantumExp a := by positivity
    have hpb : (0 : ℚ) < 2 ^ quantumExp b := by positivity
    have two_ne : (2 : ℚ) ≠ 0 := by norm_num
    -- the rounded value of a is at most 2 ^ (quantumExp a + 53)
    have h1 : roundGrid a ≤ (2 : ℚ) ^ (quantumExp a + 53) := by
      have hlt2 : a < (2 : ℚ) ^ (quantumExp a + 53) :=
        lt_of_lt_of_le (lt_zpow_log_succ a) (zpow_le_zpow_right₀ (by norm_num) hal)
      have hm : a / 2 ^ quantumExp a ≤ (((2 ^ 53 : Int)) : ℚ) := by
        rw [div_le_iff₀ hpa]
        have : (((2 ^ 53 : Int)) : ℚ) * 2 ^ quantumExp a = (2 : ℚ) ^ (quantumExp a + 53) := by
          rw [zpow_add₀ two_ne]
          norm_num
          ring
        rw [this]
        exact hlt2.le
      have := roundEven_mono hm
      rw [roundEven_intCast] at this
      unfold roundGrid
      have hc : (roundEven (a / 2 ^ quantumExp a) : ℚ) ≤ (((2 ^ 53 : Int)) : ℚ) := by
        exact_mod_cast this
      calc (roundEven (a / 2 ^ quantumExp a) : ℚ) * 2 ^ quantumExp a
          ≤ (((2 ^ 53 : Int)) : ℚ) * 2 ^ quantumExp a :=
            mul_le_mul_of_nonneg_right hc hpa.le
        _ = (2 : ℚ) ^ (quantumExp a + 53) := by
          rw [zpow_add₀ two_ne]
          norm_num
          ring
    -- the rounded value of b is at least 2 ^ (quantumExp b + 52)
    have h2 : (2 : ℚ) ^ (quantumExp b + 52) ≤ roundGrid b := by
      have hge : (2 : ℚ) ^ (quantumExp b + 52) ≤ b := by
        rw [hbl]
        have := zpow_log_le b hbpos
        rwa [show Int.log 2 b - 52 + 52 = Int.log 2 b by omega]
      have hm : (((2 ^ 52 : Int)) : ℚ) ≤ b / 2 ^ quantumExp b := by
        rw [le_div_iff₀ hpb]
        have : (((2 ^ 52 : Int)) : ℚ) * 2 ^ quantumExp b = (2 : ℚ) ^ (quantumExp b + 52) := by
          rw [zpow_add₀ two_ne]
          norm_num
          ring
        rw [this]
        exact hge
      have := roundEven_mono hm
      rw [roundEven_intCast] at this
      unfold roundGrid
      have hc : (((2 ^ 52 : Int)) : ℚ) ≤ (roundEven (b / 2 ^ quantumExp b) : ℚ) := by
        exact_mod_cast this
      calc (2 : ℚ) ^ (quantumExp b + 52) = (((2 ^ 52 : Int)) : ℚ) * 2 ^ quantumExp b := by
            rw [zpow_add₀ two_ne]
            norm_num
            ring
        _ ≤ (roundEven (b / 2 ^ quantumExp b) : ℚ) * 2 ^ quantumExp b :=
            mul_le_mul_of_nonneg_right hc hpb.le
    calc roundGrid a ≤ (2 : ℚ) ^ (quantumExp a + 53) := h1
      _ ≤ (2 : ℚ) ^ (quantumExp b + 52) := zpow_le_zpow_right₀ (by norm_num) (by omega)
      _ ≤ roundGrid b := h2


/-- The largest `float64` value below 1 is `1 - 2 ^ (-53)`. -/
theorem le_pred_one_of_isFloat64 (s : ℚ) (hs : isFloat64 s) (h1 : s < 1) :
    s ≤ 1 - 1 / 2 ^ 53 := by
  by_contra hcon
  push_neg at hcon
  have hpos : 0 < s := by
    have : (0 : ℚ) < 1 - 1 / 2 ^ 53 := by norm_num
    linarith
  have hhalf : (2 : ℚ) ^ (-1 : Int) ≤ s := by
    have : (2 : ℚ) ^ (-1 : Int) ≤ 1 - 1 / 2 ^ 53 := by norm_num
    exact le_trans this hcon.le
  have hlt : s < (2 : ℚ) ^ ((-1 : Int) + 1) := by
    simpa using h1
  have hr := roundGrid_eq_of_log s (-1) hpos hhalf hlt (by norm_num)
  rw [hs.1] at hr
  have hq : (2 : ℚ) ^ ((-1 : Int) - 52) = 1 / 2 ^ 53 := by
    rw [show ((-1 : Int) - 52) = -53 by norm_num, zpow_neg]
    norm_num
  rw [hq] at hr
  set z := roundEven (s / (1 / 2 ^ 53)) with hz
  have hsz : s * 2 ^ 53 = (z : ℚ) := by
    rw [hr]
    field_simp
  have hz1 : ((2 ^ 53 - 1 : Int) : ℚ) < (z : ℚ) := by
    rw [← hsz]
    push_cast
    have : (1 - 1 / 2 ^ 53) * (2 : ℚ) ^ 53 < s * 2 ^ 53 :=
      mul_lt_mul_of_pos_right hcon (by positivity)
    have e : (1 - 1 / 2 ^ 53) * (2 : ℚ) ^ 53 = 2 ^ 53 - 1 := by norm_num
    linarith
  have hz2 : (z : ℚ) < ((2 ^ 53 : Int) : ℚ) := by
    rw [← hsz]
    push_cast
    have : s * (2 : ℚ) ^ 53 < 1 * 2 ^ 53 := mul_lt_mul_of_pos_right h1 (by positivity)
    linarith
  have a : (2 ^ 53 - 1 : Int) < z := by exact_mod_cast hz1
  have b : z < (2 ^ 53 : Int) := by exact_mod_cast hz2
  omega

/-- The product of the largest `float64` value below 1 and a positive integer `N`
below `2 ^ 53` is rounded to a value below `N`. -/
theorem roundGrid_pred_one_mul_lt (N : Nat) (hpos : 0 < N) (hN : N < 2 ^ 53) :
    roundGrid ((1 - 1 / 2 ^ 53) * (N : ℚ)) < (N : ℚ) := by
  have hNq : (0 : ℚ) < (N : ℚ) := by exact_mod_cast hpos
  have hK1 : 2 ^ Nat.log 2 N ≤ N := Nat.pow_log_le_self 2 (by omega)
  have hK2 : N < 2 ^ (Nat.log 2 N + 1) := Nat.lt_pow_succ_log_self (by norm_num) N
  generalize Nat.log 2 N = K at hK1 hK2
  have hK : K ≤ 52 := by
    by_contra hc
    have : 2 ^ 53 ≤ 2 ^ K := Nat.pow_le_pow_right (by norm_num) (by omega)
    omega
  obtain ⟨d, hd⟩ : ∃ d : Nat, K + d = 52 := ⟨52 - K, by omega⟩
  have h53 : (2 : ℚ) ^ 53 = 2 ^ K * 2 ^ (d + 1) := by
    rw [← pow_add]
    congr 1
    omega
  rcases eq_or_lt_of_le hK1 with heq | hlt
  · -- N is a power of two: the product is a float64 value
    have hx : (1 - 1 / 2 ^ 53) * (N : ℚ) = ((2 ^ 53 - 1 : Int) : ℚ) * 2 ^ ((K : Int) - 53) := by
      rw [← heq, zpow_sub₀ (by norm_num : (2 : ℚ) ≠ 0), zpow_natCast]
      push_cast
      norm_num
      ring
    rw [hx, roundGrid_scaled_int _ _ (by norm_num) (by omega), ← hx]
    have : (1 - 1 / 2 ^ 53) * (N : ℚ) < 1 * (N : ℚ) :=
      mul_lt_mul_of_pos_right (by norm_num) hNq
    linarith
  · have hN1 : (2 : ℚ) ^ K + 1 ≤ (N : ℚ) := by exact_mod_cast hlt
    have hN2 : (N : ℚ) < 2 ^ (K + 1) := by exact_mod_cast hK2
    have hN53 : (N : ℚ) < 2 ^ 53 := by exact_mod_cast hN
    have hxlt : (1 - 1 / 2 ^ 53) * (N : ℚ) < (N : ℚ) := by
      have : (1 - 1 / 2 ^ 53) * (N : ℚ) < 1 * (N : ℚ) :=
        mul_lt_mul_of_pos_right (by norm_num) hNq
      linarith
    have hxge : (2 : ℚ) ^ K ≤ (1 - 1 / 2 ^ 53) * (N : ℚ) := by
      have e : (1 - 1 / 2 ^ 53) * (N : ℚ) = (N : ℚ) - (N : ℚ) / 2 ^ 53 := by ring
      have hfr : (N : ℚ) / 2 ^ 53 < 1 := by
        rw [div_lt_one (by positivity)]
        exact hN53
      linarith
    have hxpos : 0 < (1 - 1 / 2 ^ 53) * (N : ℚ) := lt_of_lt_of_le (by positivity) hxge
    have hr := roundGrid_eq_of_log ((1 - 1 / 2 ^ 53) * (N : ℚ)) (K : Int) hxpos
      (by rw [zpow_natCast]; exact hxge)
      (by
        rw [show ((K : Int) + 1) = ((K + 1 : Nat) : Int) by push_cast; ring, zpow_natCast]
        exact lt_trans hxlt hN2)
      (by omega)
    have hq : (2 : ℚ) ^ ((K : Int) - 52) = 1 / 2 ^ d := by
      rw [show ((K : Int) - 52) = -((d : Nat) : Int) by omega, zpow_neg, zpow_natCast]
      simp
    rw [hr, hq]
    have hdpos : (0 : ℚ) < 2 ^ d := by positivity
    have hlt2 : roundEven ((1 - 1 / 2 ^ 53) * (N : ℚ) / (1 / 2 ^ d)) < ((N * 2 ^ d : Nat) : Int) := by
      apply roundEven_lt_of_lt_sub_half
      push_cast
      have e : (1 - 1 / 2 ^ 53) * (N : ℚ) / (1 / 2 ^ d)
          = (N : ℚ) * 2 ^ d - (N : ℚ) * 2 ^ d / 2 ^ 53 := by
        field_simp
        ring
      rw [e]
      have hhalf : (1 : ℚ) / 2 < (N : ℚ) * 2 ^ d / 2 ^ 53 := by
        rw [lt_div_iff₀ (by positivity), h53, pow_succ]
        have hK0 : (0 : ℚ) < 2 ^ K := by positivity
        nlinarith [mul_pos hK0 hdpos, mul_le_mul_of_nonneg_right hN1 hdpos.le]
      linarith
    have hc : (roundEven ((1 - 1 / 2 ^ 53) * (N : ℚ) / (1 / 2 ^ d)) : ℚ)
        < (((N * 2 ^ d : Nat) : Int) : ℚ) := by exact_mod_cast hlt2
    calc (roundEven ((1 - 1 / 2 ^ 53) * (N : ℚ) / (1 / 2 ^ d)) : ℚ) * (1 / 2 ^ d)
        < (((N * 2 ^ d : Nat) : Int) : ℚ) * (1 / 2 ^ d) :=
          mul_lt_mul_of_pos_right hc (by positivity)
      _ = (N : ℚ) := by
          push_cast
          field_simp

/-- The product of a `float64` value below 1 and a positive integer `N` below
`2 ^ 53` is rounded to a value below `N`. -/
theorem roundGrid_mul_lt (s : ℚ) (N : Nat) (hs : isFloat64 s) (h0 : 0 ≤ s) (h1 : s < 1)
    (hpos : 0 < N) (hN : N < 2 ^ 53) : roundGrid (s * (N : ℚ)) < (N : ℚ) := by
  have hle : s * (N : ℚ) ≤ (1 - 1 / 2 ^ 53) * (N : ℚ) :=
    mul_le_mul_of_nonneg_right (le_pred_one_of_isFloat64 s hs h1) (Nat.cast_nonneg N)
  exact lt_of_le_of_lt (roundGrid_mono (mul_nonneg h0 (Nat.cast_nonneg N)) hle)
    (roundGrid_pred_one_mul_lt N hpos hN)

/-- A rational `n * 2 ^ j` with `|n| < 2 ^ 53` and `j >= -1074` is fixed by the
rounding. -/
theorem roundGrid_of_eq (q : ℚ) (n j : Int) (h : q = (n : ℚ) * 2 ^ j)
    (hn : -(2 ^ 53) < n ∧ n < 2 ^ 53) (hj : -1074 ≤ j) : roundGrid q = q := by
  rw [h]
  exact roundGrid_scaled_int n j (abs_lt.mpr hn) hj

theorem isFloat64_of_eq (q : ℚ) (n j : Int) (h : q = (n : ℚ) * 2 ^ j)
    (hn : -(2 ^ 53) < n ∧ n < 2 ^ 53) (hj : -1074 ≤ j)
    (hq : -(2 ^ 1024) < q ∧ q < 2 ^ 1024) : isFloat64 q :=
  ⟨roundGrid_of_eq q n j h hn hj, abs_lt.mpr hq⟩

theorem isFloat64_zero : isFloat64 0 :=
  isFloat64_of_eq 0 0 0 (by norm_num) (by norm_num) (by norm_num) (by norm_num)

theorem isFloat64_one : isFloat64 1 :=
  isFloat64_of_eq 1 1 0 (by norm_num) (by norm_num) (by norm_num) (by norm_num)

theorem isFloat64_half : isFloat64 (1 / 2) :=
  isFloat64_of_eq (1 / 2) 1 (-1) (by norm_num) (by norm_num) (by norm_num) (by norm_num)

theorem isFloat64_float03 : isFloat64 float03 :=
  isFloat64_of_eq float03 5404319552844595 (-54) (by norm_num [float03]) (by norm_num)
    (by norm_num) (by norm_num [float03])

theorem isFloat64_float06 : isFloat64 float06 :=
  isFloat64_of_eq float06 5404319552844595 (-53) (by norm_num [float06]) (by norm_num)
    (by norm_num) (by norm_num [float06])

/-- The Go constant `0.3` is converted to `float03`. -/
theorem roundGrid_three_tenths : roundGrid (3 / 10) = float03 := by
  rw [roundGrid_eq_of_log (3 / 10) (-2) (by norm_num) (by norm_num) (by norm_num)
    (by norm_num)]
  rw [roundEven_eq_of_abs_lt _ 5404319552844595 (by
    rw [abs_lt]
    constructor <;> norm_num)]
  norm_num [float03]

/-- The Go constant `0.6` is converted to `float06`. -/
theorem roundGrid_six_tenths : roundGrid (6 / 10) = float06 := by
  rw [roundGrid_eq_of_log (6 / 10) (-1) (by norm_num) (by norm_num) (by norm_num)
    (by norm_num)]
  rw [roundEven_eq_of_abs_lt _ 5404319552844595 (by
    rw [abs_lt]
    constructor <;> norm_num)]
  norm_num [float06]

/-- The product `0.3 * 5` of `float64` values is `1.5`. -/
theorem roundGrid_float03_mul_five : roundGrid (float03 * 5) = 3 / 2 := by
  rw [roundGrid_eq_of_log (float03 * 5) 0 (by norm_num [float03]) (by norm_num [float03])
    (by norm_num [float03]) (by norm_num)]
  rw [roundEven_eq_of_abs_lt _ 6755399441055744 (by
    rw [abs_lt]
    constructor <;> norm_num [float03])]
  norm_num

/-- The product `0.6 * 5` of `float64` values is `3`, although the exact product is
below 3. -/
theorem roundGrid_float06_mul_five : roundGrid (float06 * 5) = 3 := by
  rw [roundGrid_eq_of_log (float06 * 5) 1 (by norm_num [float06]) (by norm_num [float06])
    (by norm_num [float06]) (by norm_num)]
  rw [roundEven_eq_of_abs_lt _ 6755399441055744 (by
    rw [abs_lt]
    constructor <;> norm_num [float06])]
  norm_num

theorem isFloat64_float058 : isFloat64 float058 :=
  isFloat64_of_eq float058 5224175567749775 (-53) (by norm_num [float058]) (by norm_num)
    (by norm_num) (by norm_num [float058])

/-- The Go constant `0.58` is converted to `float058`. -/
theorem roundGrid_fifty_eight_hundredths : roundGrid (58 / 100) = float058 := by
  rw [roundGrid_eq_of_log (58 / 100) (-1) (by norm_num) (by norm_num) (by norm_num)
    (by norm_num)]
  rw [roundEven_eq_of_abs_lt _ 5224175567749775 (by
    rw [abs_lt]
    constructor <;> norm_num)]
  norm_num [float058]

/-- The product `0.58 * 50` of `float64` values is `29 - 2 ^ (-48)`, the largest
`float64` value below 29. -/
theorem roundGrid_float058_mul_fifty : roundGrid (float058 * 50) = 29 - 1 / 2 ^ 48 := by
  rw [roundGrid_eq_of_log (float058 * 50) 4 (by norm_num [float058]) (by norm_num [float058])
    (by norm_num [float058]) (by norm_num)]
  rw [roundEven_eq_of_abs_lt _ 8162774324609023 (by
    rw [abs_lt]
    constructor <;> norm_num [float058])]
  norm_num

/-- The conversion `float64(nprices)` of `2 ^ 53 + 3` is `2 ^ 53 + 4`. -/
theorem roundGrid_two_pow_53_add_three :
    roundGrid (((2 ^ 53 + 3 : Nat) : ℚ)) = 2 ^ 53 + 4 := by
  have hx : (((2 ^ 53 + 3 : Nat) : ℚ)) = 2 ^ 53 + 3 := by norm_num
  rw [hx, roundGrid_eq_of_log (2 ^ 53 + 3) 53 (by norm_num) (by norm_num) (by norm_num)
    (by norm_num)]
  have hfl : ⌊((2 : ℚ) ^ 53 + 3) / 2 ^ ((53 : Int) - 52)⌋ = 2 ^ 52 + 1 := by
    rw [Int.floor_eq_iff]
    norm_num
  have hr : roundEven (((2 : ℚ) ^ 53 + 3) / 2 ^ ((53 : Int) - 52)) = 2 ^ 52 + 2 := by
    unfold roundEven
    rw [hfl]
    norm_num
  rw [hr]
  norm_num

/-! ## Lemmas on the buckets -/

/-- The conversion `float64(nprices)` is exact for a pool of fewer than `2 ^ 53`
fees. -/
theorem rnd_natCast (N : Nat) (hN : N < 2 ^ 53) : F64.rnd (N : ℚ) = F64.fin (N : ℚ) := by
  have hlt : (N : ℚ) < 2 ^ 53 := by exact_mod_cast hN
  have hnn : (0 : ℚ) ≤ (N : ℚ) := Nat.cast_nonneg N
  have h1 : ¬ ((2 : ℚ) ^ 1024 ≤ (N : ℚ)) := by
    have : (2 : ℚ) ^ 53 ≤ 2 ^ 1024 := by norm_num
    linarith
  have h2 : ¬ ((N : ℚ) ≤ -(2 : ℚ) ^ 1024) := by
    have : (0 : ℚ) < 2 ^ 1024 := by positivity
    linarith
  unfold F64.rnd
  rw [roundGrid_natCast N hN, if_neg h1, if_neg h2]

/-- The rounded product of a value of `[0, 1]` and the size `N` of a pool lies in
`[0, N]`. -/
theorem roundGrid_mul_bounds (q : ℚ) (N : Nat) (h0 : 0 ≤ q) (h1 : q ≤ 1) (hN : N < 2 ^ 53) :
    0 ≤ roundGrid (q * (N : ℚ)) ∧ roundGrid (q * (N : ℚ)) ≤ (N : ℚ) := by
  have hq : 0 ≤ q * (N : ℚ) := mul_nonneg h0 (Nat.cast_nonneg N)
  have hle : q * (N : ℚ) ≤ (N : ℚ) := by
    calc q * (N : ℚ) ≤ 1 * (N : ℚ) := mul_le_mul_of_nonneg_right h1 (Nat.cast_nonneg N)
      _ = (N : ℚ) := one_mul _
  refine ⟨roundGrid_nonneg _ hq, ?_⟩
  have := roundGrid_mono hq hle
  rwa [roundGrid_natCast N hN] at this

/-- The index `int(q * float64(nprices))` for a bound `q` of `[0, 1]`. -/
theorem toInt_mul_rnd (cvt : F64 → Int) (q : ℚ) (N : Nat) (h0 : 0 ≤ q) (h1 : q ≤ 1)
    (hN : N < 2 ^ 53) :
    F64.toInt cvt ((F64.fin q).mul (F64.rnd (N : ℚ)))
      = ((⌊roundGrid (q * (N : ℚ))⌋₊ : Nat) : Int) := by
  obtain ⟨hr0, hrN⟩ := roundGrid_mul_bounds q N h0 h1 hN
  have hlt : (N : ℚ) < 2 ^ 53 := by exact_mod_cast hN
  have hc1 : ¬ ((2 : ℚ) ^ 1024 ≤ roundGrid (q * (N : ℚ))) := by
    have : (2 : ℚ) ^ 53 ≤ 2 ^ 1024 := by norm_num
    linarith
  have hc2 : ¬ (roundGrid (q * (N : ℚ)) ≤ -(2 : ℚ) ^ 1024) := by
    have : (0 : ℚ) < 2 ^ 1024 := by positivity
    linarith
  have hle : ⌊roundGrid (q * (N : ℚ))⌋₊ ≤ N := Nat.floor_le_of_le hrN
  have htr : F64.trunc (roundGrid (q * (N : ℚ)))
      = ((⌊roundGrid (q * (N : ℚ))⌋₊ : Nat) : Int) := by
    unfold F64.trunc
    rw [if_pos hr0, Int.natCast_floor_eq_floor hr0]
  have hN2 : ((N : Nat) : Int) < 2 ^ 53 := by exact_mod_cast hN
  rw [rnd_natCast N hN]
  simp only [F64.mul, F64.rnd, hc1, hc2, if_false, F64.toInt, htr]
  rw [if_pos]
  constructor <;> omega

/-- The indices of a valid target on a pool of `N` fees, `0 < N < 2 ^ 53`. -/
theorem index_bounds (p : ℚ × ℚ) (N : Nat) (hpos : 0 < N) (hN : N < 2 ^ 53)
    (hv : validBounds p) :
    ⌊roundGrid (p.1 * (N : ℚ))⌋₊ < N
      ∧ ⌊roundGrid (p.1 * (N : ℚ))⌋₊ ≤ ⌊roundGrid (p.2 * (N : ℚ))⌋₊
      ∧ ⌊roundGrid (p.2 * (N : ℚ))⌋₊ ≤ N := by
  obtain ⟨hf1, -, h0, h12, h1⟩ := hv
  have hq1 : 0 ≤ p.1 * (N : ℚ) := mul_nonneg h0 (Nat.cast_nonneg N)
  refine ⟨?_, ?_, ?_⟩
  · rw [Nat.floor_lt (roundGrid_nonneg _ hq1)]
    exact roundGrid_mul_lt p.1 N hf1 h0 (lt_of_lt_of_le h12 h1) hpos hN
  · exact Nat.floor_mono (roundGrid_mono hq1
      (mul_le_mul_of_nonneg_right h12.le (Nat.cast_nonneg N)))
  · exact Nat.floor_le_of_le (roundGrid_mul_bounds p.2 N (le_trans h0 h12.le) h1 hN).2

/-- The body of the loop over the targets, for a valid target on a non-empty pool of
fewer than `2 ^ 53` fees. -/
theorem bucket_eq_specEstimate64 (cvt : F64 → Int) (S : List Int) (p : ℚ × ℚ)
    (hpos : 0 < S.length) (hlen : S.length < 2 ^ 53) (hv : validBounds p) :
    bucket cvt S (Target.ofRat p) = some (specEstimate64 S p.1 p.2) := by
  obtain ⟨ha_lt, hab, hb_le⟩ := index_bounds p S.length hpos hlen hv
  obtain ⟨-, -, h0, h12, h1⟩ := hv
  have hN2 : ((S.length : Nat) : Int) < 2 ^ 53 := by exact_mod_cast hlen
  simp only [bucket, Target.ofRat, specEstimate64]
  rw [toInt_mul_rnd cvt p.1 S.length h0 (le_trans h12.le h1) hlen,
    toInt_mul_rnd cvt p.2 S.length (le_trans h0 h12.le) h1 hlen]
  generalize ⌊roundGrid (p.1 * (S.length : ℚ))⌋₊ = a at ha_lt hab
  generalize ⌊roundGrid (p.2 * (S.length : ℚ))⌋₊ = b0 at hab hb_le
  rw [wrap64_eq ((b0 : Int) - (a : Int)) (by omega) (by omega)]
  by_cases heq : a = b0
  · subst heq
    simp only [sub_self, if_true]
    rw [wrap64_eq ((a : Int) + 1) (by omega) (by omega)]
    have hk : ((a : Int) + 1 - (a : Int)).toNat = 1 := by omega
    have hk2 : a + 1 - a = 1 := by omega
    rw [hk, sumLoop_eq S 1 a 0 (by omega)]
    have hn : wrap64 ((a : Int) + 1 - (a : Int)) = 1 := by
      rw [wrap64_eq _ (by omega) (by omega)]; omega
    simp only [hn, hk2, zero_add, one_ne_zero, if_false, Nat.cast_one]
    rw [Int.ediv_one, div_one, Int.floor_intCast]
  · have hne : ¬ ((b0 : Int) - (a : Int) = 0) := by omega
    simp only [hne, if_false, heq]
    have hk : ((b0 : Int) - (a : Int)).toNat = b0 - a := by omega
    rw [hk, sumLoop_eq S (b0 - a) a 0 (by omega)]
    have hd : ((b0 : Int) - (a : Int)) = ((b0 - a : Nat) : Int) := by omega
    have hw : wrap64 ((b0 - a : Nat) : Int) = ((b0 - a : Nat) : Int) :=
      wrap64_eq _ (by omega) (by omega)
    have hnz : ¬ (((b0 - a : Nat) : Int) = 0) := by omega
    simp only [hnz, if_false, zero_add, hd, hw, Rat.floor_intCast_div_natCast]

/-- The loop over the targets, for valid targets on a non-empty pool of fewer than
`2 ^ 53` fees. -/
theorem estimatesLoop_eq_map64 (cvt : F64 → Int) (S : List Int) (targets : List (ℚ × ℚ))
    (hpos : 0 < S.length) (hlen : S.length < 2 ^ 53)
    (hv : ∀ p ∈ targets, validBounds p) :
    estimatesLoop cvt S (targets.map Target.ofRat)
      = some (targets.map (fun p => specEstimate64 S p.1 p.2)) := by
  induction targets with
  | nil => rfl
  | cons p targets ih =>
    simp only [List.map_cons, estimatesLoop]
    rw [bucket_eq_specEstimate64 cvt S p hpos hlen (hv p (List.mem_cons_self _ _)),
      ih (fun q hq => hv q (List.mem_cons_of_mem _ hq))]

/-! ## C1: the estimates are the bucket means -/

/-- The pool of a successful walk, as `estimate` builds it. -/
theorem walkPool_of_walk {σ : Type} (sampler : Sampler σ) (e : Estimator) (head tip1 : Hash)
    (w w1 : σ) (samples : List Sample)
    (hwalk : Walk sampler e.history.toNat head w samples tip1 w1) :
    walkPool sampler e head w = (Except.ok (feePool samples), w1) := by
  unfold walkPool
  rw [skipLoop_eq, historyLoop_of_walk sampler hwalk []]
  rfl

/-- The estimates of the chain `decadeSamples` for the targets of main.go. -/
theorem mainTargetsEstimator_estimate :
    Estimator.estimate (fun _ => 0) (samplerMock decadeSamples) mainTargetsEstimator 202 0
      = (Outcome.ok [1, 55, 5500], 2) := by
  have hw : walkPool (samplerMock decadeSamples) mainTargetsEstimator 202 0
      = (Except.ok [100, 1, 10000, 10, 1000], 2) := rfl
  have hs : sortPrices [100, 1, 10000, 10, 1000] = [1, 10, 100, 1000, 10000] := by
    decide
  unfold Estimator.estimate
  rw [hw]
  simp only [List.length_cons, List.length_nil]
  rw [hs]
  show (match estimatesLoop (fun _ => 0) [1, 10, 100, 1000, 10000]
      ([(0, float03), (float03, float06), (float06, 1)].map Target.ofRat) with
    | none => (Outcome.panic, 2)
    | some estimates => (Outcome.ok estimates, 2)) = (Outcome.ok [1, 55, 5500], 2)
  rw [estimatesLoop_eq_map64 _ _ _ (by simp) (by simp) (by
    intro p hp
    simp only [List.mem_cons, List.mem_singleton, List.not_mem_nil, or_false] at hp
    rcases hp with rfl | rfl | rfl
    · exact ⟨isFloat64_zero, isFloat64_float03, by norm_num, by norm_num [float03],
        by norm_num [float03]⟩
    · exact ⟨isFloat64_float03, isFloat64_float06, by norm_num [float03],
        by norm_num [float03, float06], by norm_num [float06]⟩
    · exact ⟨isFloat64_float06, isFloat64_one, by norm_num [float06],
        by norm_num [float06], by norm_num⟩)]
  have h5 : roundGrid 5 = 5 := by
    simpa using roundGrid_natCast 5 (by norm_num)
  have hf : ⌊(3 : ℚ) / 2⌋₊ = 1 := by
    rw [Nat.floor_eq_iff (by norm_num)]; norm_num
  norm_num [specEstimate64, roundGrid_zero, roundGrid_float03_mul_five,
    roundGrid_float06_mul_five, h5, hf, Int.floor_eq_iff]

/-- The estimates of the chain `fiftySamples` for the targets `{0, 0.58}`,
`{0.58, 1}`. -/
theorem fiftyEstimator_estimate :
    Estimator.estimate (fun _ => 0) (samplerMock fiftySamples) fiftyEstimator 301 0
      = (Outcome.ok [10, 300], 1) := by
  have hw : walkPool (samplerMock fiftySamples) fiftyEstimator 301 0
      = (Except.ok fiftyPool, 1) := rfl
  have hs : sortPrices fiftyPool = fiftyPool := by
    decide
  have hl : fiftyPool.length = 50 := rfl
  unfold Estimator.estimate
  rw [hw]
  simp only [hl]
  rw [hs]
  show (match estimatesLoop (fun _ => 0) fiftyPool
      ([(0, float058), (float058, 1)].map Target.ofRat) with
    | none => (Outcome.panic, 1)
    | some estimates => (Outcome.ok estimates, 1)) = (Outcome.ok [10, 300], 1)
  rw [estimatesLoop_eq_map64 _ _ _ (by simp [hl]) (by simp [hl]) (by
    intro p hp
    simp only [List.mem_cons, List.mem_singleton, List.not_mem_nil, or_false] at hp
    rcases hp with rfl | rfl
    · exact ⟨isFloat64_zero, isFloat64_float058, by norm_num, by norm_num [float058],
        by norm_num [float058]⟩
    · exact ⟨isFloat64_float058, isFloat64_one, by norm_num [float058],
        by norm_num [float058], by norm_num⟩)]
  have h50 : roundGrid 50 = 50 := by
    simpa using roundGrid_natCast 50 (by norm_num)
  have hf : ⌊(29 : ℚ) - 1 / 2 ^ 48⌋₊ = 28 := by
    rw [Nat.floor_eq_iff (by norm_num)]; norm_num
  have e1 : specEstimate64 fiftyPool 0 float058 = 10 := by
    simp only [specEstimate64, hl, zero_mul, roundGrid_zero, Nat.floor_zero, Nat.cast_ofNat,
      roundGrid_float058_mul_fifty, hf]
    rw [Int.floor_eq_iff]
    norm_num [fiftyPool]
  have e2 : specEstimate64 fiftyPool float058 1 = 300 := by
    simp only [specEstimate64, hl, one_mul, Nat.cast_ofNat,
      roundGrid_float058_mul_fifty, hf, h50, Nat.floor_ofNat]
    rw [Int.floor_eq_iff]
    norm_num [fiftyPool]
  simp only [List.map_cons, List.map_nil, e1, e2]

/-- C1, as stated, fails. On the chain `decadeSamples` (pool 1, 10, 100, 1000, 10000)
and the targets `{0, 0.3}`, `{0.3, 0.6}`, `{0.6, 1}` of main.go, `estimate` returns
`[1, 55, 5500]`; with `a = floor(start * N)` and `b = floor(end * N)` on the exact
products of the values of the targets the formula of the claim gives `[1, 10, 3700]`:
the `float64` product `0.6 * 5` is rounded to 3, the exact product is below 3.
Taking the fractions as the decimals of the program text does not help: on the chain
`fiftySamples` (50 fees) and the targets `{0, 0.58}`, `{0.58, 1}`, `estimate` returns
`[10, 300]` and the formula on `58 / 100` gives `[20, 300]`: the `float64` product
`0.58 * 50` is below 29. -/
theorem estimate_rounds_products :
    (Estimator.estimate (fun _ => 0) (samplerMock decadeSamples) mainTargetsEstimator 202 0
        = (Outcome.ok [1, 55, 5500], 2)
      ∧ [(0, float03), (float03, float06), (float06, 1)].map
          (fun p => specEstimate [1, 10, 100, 1000, 10000] p.1 p.2) = [1, 10, 3700])
    ∧ (Estimator.estimate (fun _ => 0) (samplerMock fiftySamples) fiftyEstimator 301 0
        = (Outcome.ok [10, 300], 1)
      ∧ [((0 : ℚ), (58 / 100 : ℚ)), (58 / 100, 1)].map
          (fun p => specEstimate fiftyPool p.1 p.2) = [20, 300]) := by
  refine ⟨⟨mainTargetsEstimator_estimate, ?_⟩, ⟨fiftyEstimator_estimate, ?_⟩⟩
  · have hf1 : ⌊float03 * 5⌋₊ = 1 := by
      rw [Nat.floor_eq_iff (by norm_num [float03])]; norm_num [float03]
    have hf2 : ⌊float06 * 5⌋₊ = 2 := by
      rw [Nat.floor_eq_iff (by norm_num [float06])]; norm_num [float06]
    norm_num [specEstimate, hf1, hf2, Int.floor_eq_iff]
  · have hl : fiftyPool.length = 50 := rfl
    have hf : ⌊(58 : ℚ) / 100 * 50⌋₊ = 29 := by
      rw [Nat.floor_eq_iff (by norm_num)]; norm_num
    have e1 : specEstimate fiftyPool 0 (58 / 100) = 20 := by
      simp only [specEstimate, hl, zero_mul, Nat.floor_zero, Nat.cast_ofNat, hf]
      rw [Int.floor_eq_iff]
      norm_num [fiftyPool]
    have e2 : specEstimate fiftyPool (58 / 100) 1 = 300 := by
      simp only [specEstimate, hl, one_mul, Nat.cast_ofNat, hf, Nat.floor_ofNat]
      rw [Int.floor_eq_iff]
      norm_num [fiftyPool]
    simp only [List.map_cons, List.map_nil, e1, e2]

/-- C1, amended. For valid targets (bounds that are `float64` values) and a walk
whose sampler calls all succeed with a non-empty fee pool of fewer than `2 ^ 53`
fees, `estimate` returns one value per target, in the order of the targets; the
value of a target is `floor(sum(S[a..b)) / (b - a))`, where `S` is the pool sorted
ascending, `a = floor(fl(start * N))`, `b = floor(fl(end * N))`, `fl` rounds the
exact product to the nearest `float64` value, and `b` is `a + 1` when `a = b`. -/
theorem estimate_eq_bucket_means {σ : Type} (cvt : F64 → Int) (sampler : Sampler σ)
    (e : Estimator) (head tip1 : Hash) (w w1 : σ) (samples : List Sample)
    (targets : List (ℚ × ℚ)) (S : List Int)
    (htargets : e.targets = targets.map Target.ofRat)
    (hvalid : ∀ p ∈ targets, validBounds p)
    (hwalk : Walk sampler e.history.toNat head w samples tip1 w1)
    (hne : feePool samples ≠ [])
    (hlen : (feePool samples).length < 2 ^ 53)
    (hS : S.Sorted (fun a b => a ≤ b)) (hperm : S.Perm (feePool samples)) :
    Estimator.estimate cvt sampler e head w
      = (Outcome.ok (targets.map (fun p => specEstimate64 S p.1 p.2)), w1) := by
  have hl : S.length = (feePool samples).length := hperm.length_eq
  have hpos : 0 < S.length := by
    rw [hl]; exact List.length_pos.mpr hne
  have hw := walkPool_of_walk sampler e head tip1 w w1 samples hwalk
  have hnz : ¬ ((feePool samples).length = 0) := by omega
  unfold Estimator.estimate
  rw [hw]
  simp only [hnz, if_false]
  rw [sortPrices_eq_of_sorted_perm _ S hS hperm, htargets,
    estimatesLoop_eq_map64 cvt S targets hpos (by omega) hvalid]

/-- C1, witness: the chain, the estimator and the expected prices of
`TestEstimatorGasPrices`, and the example of the specification. -/
theorem estimate_eq_bucket_means_witness :
    Estimator.estimate (fun _ => 0) (samplerMock testSamples) testEstimator 102 0
        = (Outcome.ok [21, 38, 31], 2)
      ∧ Estimator.estimate (fun _ => 0) (samplerMock exampleSamples) exampleEstimator 7 0
        = (Outcome.ok [22, 40], 1) := by
  have hv0 : validBounds ((0 : ℚ), (1 / 2 : ℚ)) :=
    ⟨isFloat64_zero, isFloat64_half, by norm_num, by norm_num, by norm_num⟩
  have hv1 : validBounds ((1 / 2 : ℚ), (1 : ℚ)) :=
    ⟨isFloat64_half, isFloat64_one, by norm_num, by norm_num, by norm_num⟩
  have hv2 : validBounds ((0 : ℚ), (1 : ℚ)) :=
    ⟨isFloat64_zero, isFloat64_one, by norm_num, by norm_num, by norm_num⟩
  constructor
  · have h := estimate_eq_bucket_means (fun _ => 0) (samplerMock testSamples) testEstimator
      102 100 0 2
      [{ header := { ParentHash := 101 }, prices := [35, 25, 45, 35] },
       { header := { ParentHash := 100 }, prices := [40, 30, 10] }]
      [(0, 1 / 2), (1 / 2, 1), (0, 1)] [10, 25, 30, 35, 35, 40, 45] rfl
      (by
        intro p hp
        simp only [List.mem_cons, List.mem_singleton, List.not_mem_nil, or_false] at hp
        rcases hp with rfl | rfl | rfl
        · exact hv0
        · exact hv1
        · exact hv2)
      (Walk.next rfl (Walk.next rfl (Walk.done _ _)))
      (by simp [feePool]) (by simp [feePool]) (by decide) (by decide)
    have h7 : roundGrid 7 = 7 := by
      simpa using roundGrid_natCast 7 (by norm_num)
    have h72 : roundGrid (7 / 2) = 7 / 2 :=
      roundGrid_of_eq (7 / 2) 7 (-1) (by norm_num) (by norm_num) (by norm_num)
    have hf : ⌊(7 : ℚ) / 2⌋₊ = 3 := by
      rw [Nat.floor_eq_iff (by norm_num)]; norm_num
    rw [h]
    norm_num [specEstimate64, roundGrid_zero, h7, h72, hf, Int.floor_eq_iff]
  · have h := estimate_eq_bucket_means (fun _ => 0) (samplerMock exampleSamples)
      exampleEstimator 7 zeroHash 0 1
      [{ header := { ParentHash := zeroHash }, prices := [30, 10, 45, 20, 40, 30, 35, 40] }]
      [(0, 1 / 2), (1 / 2, 1)] [10, 20, 30, 30, 35, 40, 40, 45] rfl
      (by
        intro p hp
        simp only [List.mem_cons, List.mem_singleton, List.not_mem_nil, or_false] at hp
        rcases hp with rfl | rfl
        · exact hv0
        · exact hv1)
      (Walk.next rfl (Walk.done _ _))
      (by simp [feePool]) (by simp [feePool]) (by decide) (by decide)
    have h8 : roundGrid 8 = 8 := by
      simpa using roundGrid_natCast 8 (by norm_num)
    have h4 : roundGrid 4 = 4 := by
      simpa using roundGrid_natCast 4 (by norm_num)
    rw [h]
    norm_num [specEstimate64, roundGrid_zero, h8, h4, Int.floor_eq_iff]

/-! ## C2: NewEstimator and the validity of the targets -/

theorem targetsLoop_eq_any (targets : List Target) :
    targetsLoop targets = targets.any badTarget := by
  induction targets with
  | nil => rfl
  | cons t targets ih =>
    simp only [targetsLoop, List.any_cons, ih]
    cases badTarget t <;> simp

/-- `NewEstimator` fails, with `ErrBadTargets`, exactly when a target has
`start < 0`, `end <= start` or `end > 1`, the comparisons being those of `float64`;
otherwise it returns the estimator. -/
theorem NewEstimator_eq (skip history : Int) (targets : List Target) :
    (targets.any badTarget = true →
        NewEstimator skip history targets = Except.error Error.ErrBadTargets)
      ∧ (targets.any badTarget = false →
        NewEstimator skip history targets = Except.ok
          { skip := skip, history := history, targets := targets,
            lastHead := zeroHash, lastPrices := none, chans := [] }) := by
  constructor <;> intro h <;> simp [NewEstimator, targetsLoop_eq_any, h]

/-- On targets with finite bounds the check of `NewEstimator` is the validity
`0 <= start < end <= 1`. -/
theorem badTarget_ofRat (p : ℚ × ℚ) :
    badTarget (Target.ofRat p) = false ↔ (0 ≤ p.1 ∧ p.1 < p.2 ∧ p.2 ≤ 1) := by
  simp only [badTarget, Target.ofRat, F64.lt, F64.le, Bool.or_eq_false_iff,
    decide_eq_false_iff_not, not_lt, not_le]
  tauto

/-- C2, at the failing input: a target whose bounds are NaN does not satisfy
`0 <= start < end <= 1`, and `NewEstimator` returns an estimator for it, not
`ErrBadTargets`. -/
theorem NewEstimator_nan_target :
    ¬ Target.valid { Start := F64.nan, End := F64.nan }
      ∧ NewEstimator 0 1 [{ Start := F64.nan, End := F64.nan }]
        = Except.ok
          { skip := 0, history := 1, targets := [{ Start := F64.nan, End := F64.nan }],
            lastHead := zeroHash, lastPrices := none, chans := [] } := by
  constructor
  · rintro ⟨a, b, h, -⟩
    cases h
  · rfl

/-! ## C3: the fees kept by fetch -/

/-- One turn of the loop of `popLoop`. -/
theorem popLoop_eq (size : Int) (prices pricesHeap : List Int) :
    popLoop size prices pricesHeap =
      if (prices.length : Int) < size ∧ pricesHeap.length > 0 then
        match bigIntHeap.Pop pricesHeap with
        | none => none
        | some (price, rest) => popLoop size (prices ++ [price]) rest
      else some prices := by
  rw [popLoop]
  split
  · split <;> simp_all
  · rfl

/-- C3, at the failing input: both transactions of `twoFeeBlock` qualify, with the
fees 10 and 20; with `size = 1`, `fetch` keeps the fee 20 and leaves out the strictly
smaller fee 10. -/
theorem fetch_keeps_last_fee :
    txLoop 0 twoFeeBlock.baseFee twoFeeBlock.coinbase twoFeeBlock.txs [] = Except.ok [10, 20]
      ∧ MinimumSampler.fetch { size := 1, minPrice := 0 } (Except.ok twoFeeBlock)
        = Outcome.ok { header := { ParentHash := zeroHash }, prices := [20] } := by
  have h1 : txLoop 0 twoFeeBlock.baseFee twoFeeBlock.coinbase twoFeeBlock.txs []
      = Except.ok [10, 20] := by
    simp [txLoop, twoFeeBlock]
  refine ⟨h1, ?_⟩
  unfold MinimumSampler.fetch
  simp only [h1]
  simp [popLoop_eq, bigIntHeap.Pop, twoFeeBlock]

/-! ## C4: the blocks of the pool -/

/-- The pool does not depend on `skip`. -/
theorem walkPool_skip {σ : Type} (sampler : Sampler σ) (e : Estimator) (head : Hash) (w : σ)
    (skip : Int) :
    walkPool sampler { e with skip := skip } head w = walkPool sampler e head w := by
  simp [walkPool, skipLoop_eq]

/-- C4, at the failing input: with `skip = 1`, `history = 2` and the head 102 of the
chain of `TestEstimatorGasPrices`, the pool is made of the fees of the head and of
its parent (distances 0 and 1), not of the blocks at distances 1 and 2, whose fees
are `[40, 30, 10, 30, 20, 40, 30]`. -/
theorem walkPool_samples_head :
    testEstimator.skip = 1 ∧ testEstimator.history = 2
      ∧ walkPool (samplerMock testSamples) testEstimator 102 0
        = (Except.ok [35, 25, 45, 35, 40, 30, 10], 2) := by
  refine ⟨rfl, rfl, ?_⟩
  rfl

/-! ## C10: Pop -/

/-- C10. `Pop` on the empty heap panics and returns nothing; on a non-empty heap it
does not panic, returns the last element, and leaves the elements before it, in
their order: the heap was `rest ++ [value]`, with one element more than `rest`. -/
theorem Pop_spec (h : List Int) :
    (h = [] → bigIntHeap.Pop h = none)
      ∧ (h ≠ [] → ∃ value rest, bigIntHeap.Pop h = some (value, rest)
          ∧ h = rest ++ [value] ∧ rest.length + 1 = h.length) := by
  constructor
  · intro hnil
    subst hnil
    rfl
  · intro hne
    obtain ⟨rest, value, hcat⟩ := (List.eq_nil_or_concat h).resolve_left hne
    rw [List.concat_eq_append] at hcat
    subst hcat
    refine ⟨value, rest, ?_, rfl, by simp⟩
    have hlen : (((rest ++ [value]).length : Int) - 1).toNat = rest.length := by
      simp
    have hnn : ¬ (((rest ++ [value]).length : Int) - 1 < 0) := by
      simp
    simp only [bigIntHeap.Pop, hnn, if_false, hlen]
    simp

/-- C10, witness: the empty heap and the first heap of `TestBigIntHeapPop`. -/
theorem Pop_spec_witness :
    bigIntHeap.Pop [] = none
      ∧ ∃ value rest, bigIntHeap.Pop [64, 32] = some (value, rest)
          ∧ [64, 32] = rest ++ [value] ∧ rest.length + 1 = [64, 32].length :=
  ⟨(Pop_spec []).1 rfl, (Pop_spec [64, 32]).2 (by decide)⟩

/-! ## C5: a cached head is answered without a computation -/

/-- C5. When `lastHead = h` and `lastPrices` is the non-nil list `p`, a call of
`GasPrices` for which the tracker reports `h` returns `p` and no error, and leaves
the whole state as it was: the fields of the estimator (`lastHead`, `lastPrices`,
`chans`), the state of the sampler (no call of the sampler), the running
computations (none is started) and the channels. -/
theorem GasPrices_cached {σ : Type} (w : World σ) (h : Hash) (p : List Int)
    (hh : w.e.lastHead = h) (hp : w.e.lastPrices = some p) :
    GasPrices (Except.ok h) w = (Reply.returned (some p) none, w) := by
  simp [GasPrices, hh, hp, clonePrices_eq]

/-- C5, witness: the second call of `TestEstimatorGasPrices`, after `resetCount`. -/
theorem GasPrices_cached_witness :
    GasPrices (Except.ok 102)
        ({ e := { testEstimator with lastHead := 102, lastPrices := some [21, 38, 31] },
           sampler := 0, running := [], sent := [], nextChan := 1 } : World Nat)
      = (Reply.returned (some [21, 38, 31]) none,
         { e := { testEstimator with lastHead := 102, lastPrices := some [21, 38, 31] },
           sampler := 0, running := [], sent := [], nextChan := 1 }) :=
  GasPrices_cached _ 102 [21, 38, 31] rfl rfl

/-! ## C8: the errors of estimate -/

theorem historyLoop_of_firstFailure {σ : Type} (sampler : Sampler σ) {k : Nat}
    {tip tip1 : Hash} {w w2 : σ} {samples : List Sample}
    (hwalk : Walk sampler k tip w samples tip1 w2) (err : Error) (w1 : σ)
    (hfail : sampler tip1 w2 = (Except.error err, w1)) (n : Nat) (hk : k < n)
    (acc : List Int) :
    historyLoop sampler n tip acc w = (Except.error err, w1) := by
  induction hwalk generalizing n acc with
  | done tip w =>
    obtain ⟨m, rfl⟩ : ∃ m, n = m + 1 := ⟨n - 1, by omega⟩
    simp only [historyLoop, hfail]
  | next hs _ ih =>
    obtain ⟨m, rfl⟩ : ∃ m, n = m + 1 := ⟨n - 1, by omega⟩
    simp only [historyLoop, hs]
    exact ih hfail m (by omega) _

theorem firstFailure_of_historyLoop {σ : Type} (sampler : Sampler σ) (n : Nat) (tip : Hash)
    (acc : List Int) (w w1 : σ) (err : Error)
    (h : historyLoop sampler n tip acc w = (Except.error err, w1)) :
    FirstFailure sampler n tip w err w1 := by
  induction n generalizing tip acc w with
  | zero => simp [historyLoop] at h
  | succ n ih =>
    simp only [historyLoop] at h
    rcases hs : sampler tip w with ⟨r, w2⟩
    rw [hs] at h
    cases r with
    | error err2 =>
      simp only [Prod.mk.injEq, Except.error.injEq] at h
      obtain ⟨rfl, rfl⟩ := h
      exact ⟨0, [], tip, w, by omega, Walk.done tip w, hs⟩
    | ok sample =>
      simp only at h
      obtain ⟨k, samples, tip1, w3, hk, hwalk, hfail⟩ := ih _ _ _ h
      exact ⟨k + 1, sample :: samples, tip1, w3, by omega, Walk.next hs hwalk, hfail⟩

/-- C8, as stated, fails: with a sampler whose call fails with `ErrNoSample`,
`estimate` returns `ErrNoSample`, and no walk of `history` successful sampler calls
exists. -/
theorem estimate_ErrNoSample_of_sampler :
    Estimator.estimate (fun _ => 0) noSampleSampler exampleEstimator 7 ()
        = (Outcome.error Error.ErrNoSample, ())
      ∧ ¬ ∃ samples tip1 w1,
          Walk noSampleSampler exampleEstimator.history.toNat 7 () samples tip1 w1 := by
  constructor
  · rfl
  · rintro ⟨samples, tip1, w1, hwalk⟩
    have h1 : exampleEstimator.history.toNat = 0 + 1 := rfl
    rw [h1] at hwalk
    cases hwalk with
    | next hs _ => simp [noSampleSampler] at hs

/-- C8, amended. `estimate` returns `ErrNoSample` exactly when either every sampler
call of the walk succeeds and the fee pool is empty, or the first failing sampler
call fails with `ErrNoSample` itself; when a sampler call fails, `estimate` returns
the error of the first failing call; when every call succeeds and the pool is not
empty, `estimate` returns no error. -/
theorem estimate_error_cases {σ : Type} (cvt : F64 → Int) (sampler : Sampler σ)
    (e : Estimator) (head : Hash) (w : σ) :
    (∀ w1, Estimator.estimate cvt sampler e head w = (Outcome.error Error.ErrNoSample, w1) ↔
        ((∃ samples tip1, Walk sampler e.history.toNat head w samples tip1 w1
            ∧ feePool samples = [])
          ∨ FirstFailure sampler e.history.toNat head w Error.ErrNoSample w1))
      ∧ (∀ err w1, FirstFailure sampler e.history.toNat head w err w1 →
          Estimator.estimate cvt sampler e head w = (Outcome.error err, w1))
      ∧ (∀ samples tip1 w1, Walk sampler e.history.toNat head w samples tip1 w1 →
          feePool samples ≠ [] →
          ∀ err, (Estimator.estimate cvt sampler e head w).1 ≠ Outcome.error err) := by
  have hfail : ∀ err w1, FirstFailure sampler e.history.toNat head w err w1 →
      Estimator.estimate cvt sampler e head w = (Outcome.error err, w1) := by
    rintro err w1 ⟨k, samples, tip1, w2, hk, hwalk, hf⟩
    have h := historyLoop_of_firstFailure sampler hwalk err w1 hf e.history.toNat hk []
    simp only [Estimator.estimate, walkPool, skipLoop_eq, h]
  have hok : ∀ samples tip1 w1, Walk sampler e.history.toNat head w samples tip1 w1 →
      walkPool sampler e head w = (Except.ok (feePool samples), w1) := by
    intro samples tip1 w1 hwalk
    unfold walkPool
    rw [skipLoop_eq, historyLoop_of_walk sampler hwalk []]
    rfl
  refine ⟨?_, hfail, ?_⟩
  · intro w1
    constructor
    · intro h
      unfold Estimator.estimate at h
      rcases hw : walkPool sampler e head w with ⟨r, w2⟩
      rw [hw] at h
      cases r with
      | error err =>
        simp only [Prod.mk.injEq, Outcome.error.injEq] at h
        obtain ⟨rfl, rfl⟩ := h
        right
        unfold walkPool at hw
        rw [skipLoop_eq] at hw
        exact firstFailure_of_historyLoop sampler _ _ _ _ _ _ hw
      | ok prices =>
        simp only at h
        by_cases hlen : prices.length = 0
        · simp only [hlen, if_true, Prod.mk.injEq, true_and] at h
          subst h
          left
          unfold walkPool at hw
          rw [skipLoop_eq] at hw
          obtain ⟨samples, tip1, hwalk, hP⟩ := walk_of_historyLoop sampler _ _ _ _ _ _ hw
          refine ⟨samples, tip1, hwalk, ?_⟩
          rw [List.nil_append] at hP
          rw [← hP]
          exact List.length_eq_zero.mp hlen
        · simp only [hlen, if_false] at h
          split at h <;> simp at h
    · rintro (⟨samples, tip1, hwalk, hnil⟩ | hf)
      · unfold Estimator.estimate
        rw [hok samples tip1 w1 hwalk, hnil]
        rfl
      · exact hfail _ _ hf
  · intro samples tip1 w1 hwalk hne err
    unfold Estimator.estimate
    rw [hok samples tip1 w1 hwalk]
    have hlen : ¬ ((feePool samples).length = 0) := by
      intro h0
      exact hne (List.length_eq_zero.mp h0)
    simp only [hlen, if_false]
    split <;> simp

/-- C8, witness: two blocks without fees give `ErrNoSample`; an unknown head gives
the error of the sampler; the chain of the test gives no error. -/
theorem estimate_error_cases_witness :
    Estimator.estimate (fun _ => 0) (samplerMock emptySamples) testEstimator 2 0
        = (Outcome.error Error.ErrNoSample, 2)
      ∧ Estimator.estimate (fun _ => 0) (samplerMock testSamples) testEstimator 5 0
        = (Outcome.error ErrBlockNotFound, 1)
      ∧ ∀ err, (Estimator.estimate (fun _ => 0) (samplerMock testSamples) testEstimator 102 0).1
          ≠ Outcome.error err :=
  ⟨((estimate_error_cases (fun _ => 0) (samplerMock emptySamples) testEstimator 2 0).1 2).mpr
      (Or.inl ⟨[{ header := { ParentHash := 1 }, prices := [] },
                { header := { ParentHash := zeroHash }, prices := [] }], zeroHash,
              Walk.next rfl (Walk.next rfl (Walk.done _ _)), rfl⟩),
    (estimate_error_cases (fun _ => 0) (samplerMock testSamples) testEstimator 5 0).2.1
      ErrBlockNotFound 1 ⟨0, [], 5, 0, by decide, Walk.done _ _, rfl⟩,
    (estimate_error_cases (fun _ => 0) (samplerMock testSamples) testEstimator 102 0).2.2
      [{ header := { ParentHash := 101 }, prices := [35, 25, 45, 35] },
       { header := { ParentHash := 100 }, prices := [40, 30, 10] }] 100 2
      (Walk.next rfl (Walk.next rfl (Walk.done _ _))) (by simp [feePool])⟩

/-! ## Lemmas on the steps -/

theorem run_append {σ : Type} (cvt : F64 → Int) (sampler : Sampler σ) (w : World σ)
    (tr1 tr2 : List (Event σ)) :
    run cvt sampler w (tr1 ++ tr2)
      = (run cvt sampler w tr1).bind (fun w1 => run cvt sampler w1 tr2) := by
  induction tr1 generalizing w with
  | nil => rfl
  | cons ev tr1 ih =>
    simp only [List.cons_append, run]
    cases step cvt sampler w ev with
    | none => rfl
    | some w1 => simpa using ih w1

theorem run_concat {σ : Type} (cvt : F64 → Int) (sampler : Sampler σ) (w w2 : World σ)
    (tr : List (Event σ)) (ev : Event σ) (h : run cvt sampler w (tr ++ [ev]) = some w2) :
    ∃ w1, run cvt sampler w tr = some w1 ∧ step cvt sampler w1 ev = some w2 := by
  rw [run_append] at h
  cases h1 : run cvt sampler w tr with
  | none => simp [h1] at h
  | some w1 =>
    refine ⟨w1, rfl, ?_⟩
    simp only [h1, Option.some_bind, run] at h
    cases h2 : step cvt sampler w1 ev with
    | none => simp [h2] at h
    | some w3 => simpa [h2] using h

/-- What `asyncGasPrices` does to the fields of the estimator and to the running
computations. -/
theorem asyncGasPrices_cases {σ : Type} (head : Hash) (w : World σ) :
    (w.e.lastHead = head ∧ (asyncGasPrices head w).2.e.lastHead = head
        ∧ (asyncGasPrices head w).2.e.lastPrices = w.e.lastPrices
        ∧ (asyncGasPrices head w).2.running = w.running)
      ∨ (w.e.lastHead ≠ head ∧ (asyncGasPrices head w).2.e.lastHead = head
        ∧ (asyncGasPrices head w).2.e.lastPrices = none
        ∧ (asyncGasPrices head w).2.running = w.running ++ [head]) := by
  unfold asyncGasPrices
  by_cases h1 : w.e.lastHead = head
  · left
    by_cases h2 : w.e.lastPrices = none
    · simp [h1, h2]
    · simp [h1, h2]
  · right
    simp [h1]

/-- What `broadcastGasPrices` does to the fields of the estimator and to the running
computations. -/
theorem broadcastGasPrices_cases {σ : Type} (cvt : F64 → Int) (sampler : Sampler σ)
    (head : Hash) (w w1 : World σ) (h : broadcastGasPrices cvt sampler head w = some w1) :
    w1.running = w.running ∧ w1.e.lastHead = w.e.lastHead
      ∧ (w1.e.lastPrices = w.e.lastPrices
        ∨ (w.e.lastHead = head ∧ ∃ p, w1.e.lastPrices = some p
            ∧ (Estimator.estimate cvt sampler w.e head w.sampler).1 = Outcome.ok p)) := by
  unfold broadcastGasPrices at h
  rcases hest : Estimator.estimate cvt sampler w.e head w.sampler with ⟨r, s1⟩
  rw [hest] at h
  cases r with
  | panic => simp at h
  | error err =>
    simp only [Option.some.injEq] at h
    subst h
    exact ⟨rfl, rfl, Or.inl rfl⟩
  | ok prices =>
    simp only at h
    by_cases hh : w.e.lastHead = head
    · simp only [hh, ne_eq, not_true_eq_false, if_false, Option.some.injEq] at h
      subst h
      exact ⟨rfl, hh.symm, Or.inr ⟨hh, prices, rfl, rfl⟩⟩
    · simp only [ne_eq, hh, not_false_eq_true, if_true, Option.some.injEq] at h
      subst h
      exact ⟨rfl, rfl, Or.inl rfl⟩

/-- After a step, `lastHead` and `lastPrices` are as before, or `lastPrices` is nil,
or the step is the completion of a computation for `lastHead` and `lastPrices` is
its result. -/
theorem step_lastPrices {σ : Type} (cvt : F64 → Int) (sampler : Sampler σ)
    (w w1 : World σ) (ev : Event σ) (h : step cvt sampler w ev = some w1) :
    (w1.e.lastHead = w.e.lastHead ∧ w1.e.lastPrices = w.e.lastPrices)
      ∨ w1.e.lastPrices = none
      ∨ (ev = Event.complete w1.e.lastHead ∧ ∃ p, w1.e.lastPrices = some p
          ∧ (Estimator.estimate cvt sampler w.e w1.e.lastHead w.sampler).1 = Outcome.ok p) := by
  cases ev with
  | request head =>
    simp only [step, Option.some.injEq] at h
    subst h
    rcases asyncGasPrices_cases head w with ⟨h1, h2, h3, -⟩ | ⟨-, -, h3, -⟩
    · exact Or.inl ⟨by rw [h2, h1], h3⟩
    · exact Or.inr (Or.inl h3)
  | complete head =>
    simp only [step] at h
    split at h
    · cases hb : broadcastGasPrices cvt sampler head w with
      | none => simp [hb] at h
      | some w2 =>
        simp only [hb, Option.map_some', Option.some.injEq] at h
        subst h
        obtain ⟨-, hl, hp | ⟨hh, p, hp, hest⟩⟩ := broadcastGasPrices_cases cvt sampler head w w2 hb
        · exact Or.inl ⟨hl, hp⟩
        · refine Or.inr (Or.inr ⟨?_, p, hp, ?_⟩)
          · show Event.complete head = Event.complete w2.e.lastHead
            rw [hl, hh]
          · show (Estimator.estimate cvt sampler w.e w2.e.lastHead w.sampler).1 = Outcome.ok p
            rw [hl, hh]
            exact hest
    · simp at h
  | env s =>
    simp only [step, Option.some.injEq] at h
    subst h
    exact Or.inl ⟨rfl, rfl⟩

/-- The estimate of `TestEstimatorGasPrices`, for any state of the mutable fields. -/
theorem testEstimator_estimate (e : Estimator) (hskip : e.skip = 1) (hhist : e.history = 2)
    (htargets : e.targets = testEstimator.targets) :
    Estimator.estimate (fun _ => 0) (samplerMock testSamples) e 102 0
      = (Outcome.ok [21, 38, 31], 2) := by
  have hw : walkPool (samplerMock testSamples) e 102 0
      = (Except.ok [35, 25, 45, 35, 40, 30, 10], 2) := by
    simp only [walkPool, hskip, hhist]
    rfl
  have hs : sortPrices [35, 25, 45, 35, 40, 30, 10] = [10, 25, 30, 35, 35, 40, 45] := by
    decide
  have hf : ⌊(7 : ℚ) / 2⌋₊ = 3 := by
    rw [Nat.floor_eq_iff (by norm_num)]; norm_num
  have h7 : roundGrid 7 = 7 := by
    simpa using roundGrid_natCast 7 (by norm_num)
  have h72 : roundGrid (7 / 2) = 7 / 2 :=
    roundGrid_of_eq (7 / 2) 7 (-1) (by norm_num) (by norm_num) (by norm_num)
  unfold Estimator.estimate
  rw [hw]
  simp only [List.length_cons, List.length_nil]
  rw [hs, htargets]
  show (match estimatesLoop (fun _ => 0) [10, 25, 30, 35, 35, 40, 45]
      ([(0, 1 / 2), (1 / 2, 1), (0, 1)].map Target.ofRat) with
    | none => (Outcome.panic, 2)
    | some estimates => (Outcome.ok estimates, 2)) = (Outcome.ok [21, 38, 31], 2)
  rw [estimatesLoop_eq_map64 _ _ _ (by simp) (by simp) (by
    intro p hp
    simp only [List.mem_cons, List.mem_singleton, List.not_mem_nil, or_false] at hp
    rcases hp with rfl | rfl | rfl
    · exact ⟨isFloat64_zero, isFloat64_half, by norm_num, by norm_num, by norm_num⟩
    · exact ⟨isFloat64_half, isFloat64_one, by norm_num, by norm_num, by norm_num⟩
    · exact ⟨isFloat64_zero, isFloat64_one, by norm_num, by norm_num, by norm_num⟩)]
  norm_num [specEstimate64, roundGrid_zero, h7, h72, hf, Int.floor_eq_iff]

/-! ## C7: the staleness check -/

/-- C7. From a start with `lastPrices` nil, in every state reached by requests,
completions and changes of the sampler, `lastPrices` is nil or it is the result of a
computation for `lastHead`: a completion for the head now in `lastHead` occurs in
the run, and `estimate` for that head, in the state the run had reached there,
returned these prices. A computation for `h` that succeeds while `lastHead` is not
`h` leaves the estimator, the running computations and the channels as they are. -/
theorem lastPrices_is_result_for_lastHead {σ : Type} (cvt : F64 → Int) (sampler : Sampler σ)
    (e0 : Estimator) (s0 : σ) (h0 : e0.lastPrices = none) (tr : List (Event σ))
    (w : World σ) (hrun : run cvt sampler (World.start e0 s0) tr = some w) :
    (∀ p, w.e.lastPrices = some p →
        ∃ tr1 tr2 w1, tr = tr1 ++ Event.complete w.e.lastHead :: tr2
          ∧ run cvt sampler (World.start e0 s0) tr1 = some w1
          ∧ (Estimator.estimate cvt sampler w1.e w.e.lastHead w1.sampler).1 = Outcome.ok p)
      ∧ (∀ h prices s1, w.e.lastHead ≠ h →
          Estimator.estimate cvt sampler w.e h w.sampler = (Outcome.ok prices, s1) →
          broadcastGasPrices cvt sampler h w = some { w with sampler := s1 }) := by
  constructor
  · induction tr using List.reverseRecOn generalizing w with
    | nil =>
      intro p hp
      simp only [run, Option.some.injEq] at hrun
      subst hrun
      simp [World.start, h0] at hp
    | append_singleton tr ev ih =>
      intro p hp
      obtain ⟨w1, hr, hs⟩ := run_concat cvt sampler _ _ tr ev hrun
      rcases step_lastPrices cvt sampler w1 w ev hs with ⟨hl, hq⟩ | hn | ⟨hev, q, hq, hest⟩
      · obtain ⟨tr1, tr2, w2, htr, hr2, hest⟩ := ih w1 hr p (by rw [← hq]; exact hp)
        refine ⟨tr1, tr2 ++ [ev], w2, ?_, hr2, ?_⟩
        · rw [htr, hl]
          simp
        · rw [hl]
          exact hest
      · rw [hn] at hp
        cases hp
      · refine ⟨tr, [], w1, by rw [hev], hr, ?_⟩
        rw [hq] at hp
        cases hp
        exact hest
  · intro h prices s1 hne hest
    simp only [broadcastGasPrices, hest, ne_eq, hne, not_false_eq_true, if_true]

/-- C7, witness: the first call of `TestEstimatorGasPrices`. -/
theorem lastPrices_is_result_for_lastHead_witness :
    ∃ tr1 tr2 w1,
      [Event.request 102, Event.complete 102] = tr1 ++ Event.complete 102 :: tr2
        ∧ run (fun _ => 0) (samplerMock testSamples) (World.start testEstimator 0) tr1 = some w1
        ∧ (Estimator.estimate (fun _ => 0) (samplerMock testSamples) w1.e 102 w1.sampler).1
            = Outcome.ok [21, 38, 31] :=
  (lastPrices_is_result_for_lastHead (fun _ => 0) (samplerMock testSamples) testEstimator 0 rfl
    [Event.request 102, Event.complete 102]
    { e := { testEstimator with lastHead := 102, lastPrices := some [21, 38, 31] },
      sampler := 2, running := [],
      sent := [(0, { prices := some [21, 38, 31], err := none })], nextChan := 1 }
    (by
      have h1 : step (fun _ => 0) (samplerMock testSamples) (World.start testEstimator 0)
          (Event.request 102)
          = some { e := { testEstimator with lastHead := 102, chans := [0] },
                   sampler := 0, running := [102], sent := [], nextChan := 1 } := rfl
      have hest := testEstimator_estimate { testEstimator with lastHead := 102, chans := [0] }
        rfl rfl rfl
      have h2 : step (fun _ => 0) (samplerMock testSamples)
          { e := { testEstimator with lastHead := 102, chans := [0] },
            sampler := 0, running := [102], sent := [], nextChan := 1 }
          (Event.complete 102)
          = some { e := { testEstimator with lastHead := 102, lastPrices := some [21, 38, 31] },
                   sampler := 2, running := [],
                   sent := [(0, { prices := some [21, 38, 31], err := none })],
                   nextChan := 1 } := by
        simp only [step, broadcastGasPrices, hest, List.mem_singleton, if_true, ne_eq,
          not_true_eq_false, if_false, Option.map_some', clonePrices_eq]
        rfl
      simp only [run, h1, h2, Option.some_bind])).1 [21, 38, 31] rfl

/-! ## C6: a request after a failed computation -/

/-- A request for the head that is in `lastHead` starts no computation. -/
theorem asyncGasPrices_lastHead {σ : Type} (head : Hash) (w : World σ)
    (h : w.e.lastHead = head) : (asyncGasPrices head w).2.running = w.running := by
  rcases asyncGasPrices_cases head w with ⟨-, -, -, hr⟩ | ⟨hne, -⟩
  · exact hr
  · exact absurd h hne

/-- C6, at the failing input: with the chain of the test, a request for the unknown
head 7 starts a computation, which fails; its error goes to channel 0. The next
request for head 7 is given channel 1, which is put in `chans`; no value is sent on
it and no computation is running. -/
theorem request_after_failure_starts_nothing :
    run (fun _ => 0) (samplerMock testSamples) (World.start testEstimator 0)
        [Event.request 7, Event.complete 7, Event.request 7]
      = some
        { e := { testEstimator with lastHead := 7, lastPrices := none, chans := [1] },
          sampler := 1, running := [],
          sent := [(0, { prices := none, err := some ErrBlockNotFound })],
          nextChan := 2 } := by
  have h1 : step (fun _ => 0) (samplerMock testSamples) (World.start testEstimator 0)
      (Event.request 7)
      = some { e := { testEstimator with lastHead := 7, chans := [0] },
               sampler := 0, running := [7], sent := [], nextChan := 1 } := rfl
  have hest : Estimator.estimate (fun _ => 0) (samplerMock testSamples)
      { testEstimator with lastHead := 7, chans := [0] } 7 0
        = (Outcome.error ErrBlockNotFound, 1) := rfl
  have h2 : step (fun _ => 0) (samplerMock testSamples)
      { e := { testEstimator with lastHead := 7, chans := [0] },
        sampler := 0, running := [7], sent := [], nextChan := 1 }
      (Event.complete 7)
      = some { e := { testEstimator with lastHead := 7 },
               sampler := 1, running := [],
               sent := [(0, { prices := none, err := some ErrBlockNotFound })],
               nextChan := 1 } := by
    simp only [step, broadcastGasPrices, hest, List.mem_singleton, if_true, Option.map_some']
    rfl
  have h3 : step (fun _ => 0) (samplerMock testSamples)
      { e := { testEstimator with lastHead := 7 },
        sampler := 1, running := [],
        sent := [(0, { prices := none, err := some ErrBlockNotFound })],
        nextChan := 1 }
      (Event.request 7)
      = some { e := { testEstimator with lastHead := 7, lastPrices := none, chans := [1] },
               sampler := 1, running := [],
               sent := [(0, { prices := none, err := some ErrBlockNotFound })],
               nextChan := 2 } := rfl
  simp only [run, h1, h2, h3, Option.some_bind]

/-! ## C9: coalescing -/

theorem requestedHeads_append {σ : Type} (tr1 tr2 : List (Event σ)) :
    requestedHeads (tr1 ++ tr2) = requestedHeads tr1 ++ requestedHeads tr2 := by
  induction tr1 with
  | nil => rfl
  | cons ev tr1 ih =>
    cases ev <;> simp [requestedHeads, ih]

theorem step_coalesced {σ : Type} (cvt : F64 → Int) (sampler : Sampler σ) (w w1 : World σ)
    (ev : Event σ) (hs : List Hash) (hstep : step cvt sampler w ev = some w1)
    (hinv : Coalesced w (requestedHeads [ev] ++ hs)) : Coalesced w1 hs := by
  obtain ⟨hnd, hnr, hrun⟩ := hinv
  cases ev with
  | request head =>
    simp only [step, Option.some.injEq] at hstep
    subst hstep
    simp only [requestedHeads, List.singleton_append, neverReturns, Bool.and_eq_true,
      Bool.not_eq_true', List.contains_eq_any_beq, List.any_eq_false, beq_iff_eq] at hnr hrun
    obtain ⟨hnot, hnr2⟩ := hnr
    rcases asyncGasPrices_cases head w with ⟨h1, h2, -, h4⟩ | ⟨h1, h2, -, h4⟩
    · refine ⟨by rw [h4]; exact hnd, hnr2, ?_⟩
      intro h hmem
      rw [h4] at hmem
      have := hrun h hmem
      rw [h2]
      rw [h1] at this
      simpa [List.dropWhile] using this
    · have hall : ∀ h ∈ w.running, h ∉ head :: hs := by
        intro h hmem
        have := hrun h hmem
        have hb : (head == w.e.lastHead) = false := by
          simp only [beq_eq_false_iff_ne, ne_eq]
          exact fun h => h1 h.symm
        simpa [List.dropWhile, hb] using this
      refine ⟨?_, hnr2, ?_⟩
      · rw [h4]
        refine List.Nodup.append hnd (List.nodup_singleton head) ?_
        intro a ha hb
        rw [List.mem_singleton] at hb
        subst hb
        exact hall a ha (List.mem_cons_self _ _)
      · intro h hmem hdrop
        rw [h4, List.mem_append, List.mem_singleton] at hmem
        rw [h2] at hdrop
        rcases hmem with hmem | rfl
        · exact hall h hmem (List.mem_cons_of_mem _ ((List.dropWhile_sublist _).subset hdrop))
        · exact hnot h hdrop rfl
  | complete head =>
    simp only [step] at hstep
    split at hstep
    · cases hb : broadcastGasPrices cvt sampler head w with
      | none => simp [hb] at hstep
      | some w2 =>
        simp only [hb, Option.map_some', Option.some.injEq] at hstep
        subst hstep
        obtain ⟨hr, hl, -⟩ := broadcastGasPrices_cases cvt sampler head w w2 hb
        simp only [requestedHeads, List.nil_append] at hnr hrun
        refine ⟨?_, hnr, ?_⟩
        · show (w2.running.erase head).Nodup
          rw [hr]
          exact hnd.erase head
        · intro h hmem
          have hmem2 : h ∈ w.running := by
            have : h ∈ w2.running.erase head := hmem
            rw [hr] at this
            exact List.mem_of_mem_erase this
          have := hrun h hmem2
          show h ∉ List.dropWhile (fun x => x == w2.e.lastHead) hs
          rw [hl]
          exact this
    · simp at hstep
  | env s =>
    simp only [step, Option.some.injEq] at hstep
    subst hstep
    simp only [requestedHeads, List.nil_append] at hnr hrun
    exact ⟨hnd, hnr, hrun⟩

theorem run_coalesced {σ : Type} (cvt : F64 → Int) (sampler : Sampler σ)
    (tr : List (Event σ)) (w w1 : World σ) (hs : List Hash)
    (hrun : run cvt sampler w tr = some w1)
    (hinv : Coalesced w (requestedHeads tr ++ hs)) : Coalesced w1 hs := by
  induction tr generalizing w with
  | nil =>
    simp only [run, Option.some.injEq] at hrun
    subst hrun
    simpa [requestedHeads] using hinv
  | cons ev tr ih =>
    simp only [run] at hrun
    cases hstep : step cvt sampler w ev with
    | none => simp [hstep] at hrun
    | some w2 =>
      simp only [hstep, Option.some_bind] at hrun
      refine ih w2 hrun (step_coalesced cvt sampler w w2 ev _ hstep ?_)
      have : requestedHeads (ev :: tr) = requestedHeads [ev] ++ requestedHeads tr :=
        requestedHeads_append [ev] tr
      rw [← List.append_assoc, ← this]
      exact hinv

/-- C9, as stated, fails: after requests for the heads 1, 2 and 1, in this order,
and no completion, two computations for head 1 are in flight; the third request
started one while one was in flight. -/
theorem two_computations_for_one_head :
    ∃ w, run (fun _ => 0) (samplerMock testSamples) (World.start testEstimator 0)
        [Event.request 1, Event.request 2, Event.request 1] = some w
      ∧ w.running = [1, 2, 1] ∧ w.running.count 1 = 2 :=
  ⟨_, rfl, rfl, rfl⟩

/-- C9, amended. From a start, in every state reached by requests, completions and
changes of the sampler in which no head comes back (once a request for another head
has followed a request for `h`, no later request is for `h`), at most one computation
is in flight for each head; and a further request for `h` that keeps this condition
starts a computation only if none for `h` is in flight. -/
theorem coalescing_when_heads_never_return {σ : Type} (cvt : F64 → Int)
    (sampler : Sampler σ) (e0 : Estimator) (s0 : σ) (tr : List (Event σ)) (w : World σ)
    (hrun : run cvt sampler (World.start e0 s0) tr = some w)
    (hnr : neverReturns (requestedHeads tr) = true) :
    (∀ h, w.running.count h ≤ 1)
      ∧ (∀ h, neverReturns (requestedHeads (tr ++ [Event.request h])) = true →
          (asyncGasPrices h w).2.running ≠ w.running → h ∉ w.running) := by
  constructor
  · have hinv : Coalesced w [] := by
      refine run_coalesced cvt sampler tr _ w [] hrun ?_
      refine ⟨List.nodup_nil, by simpa using hnr, ?_⟩
      intro h hmem
      simp [World.start] at hmem
    intro h
    exact List.nodup_iff_count_le_one.mp hinv.1 h
  · intro h hnr2 hstart
    have hinv : Coalesced w [h] := by
      refine run_coalesced cvt sampler tr _ w [h] hrun ?_
      refine ⟨List.nodup_nil, ?_, ?_⟩
      · rw [requestedHeads_append] at hnr2
        simpa [requestedHeads] using hnr2
      · intro x hmem
        simp [World.start] at hmem
    rcases asyncGasPrices_cases h w with ⟨-, -, -, h4⟩ | ⟨h1, -, -, -⟩
    · exact absurd h4 hstart
    · intro hmem
      have := hinv.2.2 h hmem
      have hb : (h == w.e.lastHead) = false := by
        simp only [beq_eq_false_iff_ne, ne_eq]
        exact fun h => h1 h.symm
      simp [List.dropWhile, hb] at this

/-- C9, witness: the requests 1, 1, 2 with the completion of the computation for 1. -/
theorem coalescing_when_heads_never_return_witness :
    (∀ h, ([2] : List Hash).count h ≤ 1)
      ∧ (∀ h, neverReturns (requestedHeads
            ([Event.request 1, Event.request 1, Event.request 2, Event.complete 1]
              ++ [(Event.request h : Event Nat)])) = true →
          (asyncGasPrices h
            ({ e := { testEstimator with lastHead := 2, chans := [] },
               sampler := 1, running := [2],
               sent := [(0, { prices := none, err := some ErrBlockNotFound }),
                        (1, { prices := none, err := some ErrBlockNotFound }),
                        (2, { prices := none, err := some ErrBlockNotFound })],
               nextChan := 3 } : World Nat)).2.running ≠ [2] → h ∉ ([2] : List Hash)) :=
  coalescing_when_heads_never_return (fun _ => 0) (samplerMock testSamples) testEstimator 0
    [Event.request 1, Event.request 1, Event.request 2, Event.complete 1]
    { e := { testEstimator with lastHead := 2, chans := [] },
      sampler := 1, running := [2],
      sent := [(0, { prices := none, err := some ErrBlockNotFound }),
               (1, { prices := none, err := some ErrBlockNotFound }),
               (2, { prices := none, err := some ErrBlockNotFound })],
      nextChan := 3 }
    rfl rfl

/-! ## C13: the indices of a bucket -/

/-- The body of the loop over the targets, in terms of `bucketStart` and `bucketEnd`. -/
theorem bucket_eq (cvt : F64 → Int) (prices : List Int) (t : Target) :
    bucket cvt prices t =
      match sumLoop prices (bucketEnd cvt prices t - bucketStart cvt prices t).toNat
          (bucketStart cvt prices t) 0 with
      | none => none
      | some sum =>
        if wrap64 (bucketEnd cvt prices t - bucketStart cvt prices t) = 0 then none
        else some (sum / wrap64 (bucketEnd cvt prices t - bucketStart cvt prices t)) :=
  rfl

/-- The `start` and the `end` of the loop body for a valid target on a non-empty pool
of fewer than `2 ^ 53` fees. -/
theorem bucketStart_bucketEnd_eq (cvt : F64 → Int) (prices : List Int) (p : ℚ × ℚ)
    (hpos : 0 < prices.length) (hlen : prices.length < 2 ^ 53) (hv : validBounds p) :
    bucketStart cvt prices (Target.ofRat p)
        = ((⌊roundGrid (p.1 * (prices.length : ℚ))⌋₊ : Nat) : Int)
      ∧ bucketEnd cvt prices (Target.ofRat p)
        = (if ((⌊roundGrid (p.1 * (prices.length : ℚ))⌋₊ : Nat) : Int)
              = ((⌊roundGrid (p.2 * (prices.length : ℚ))⌋₊ : Nat) : Int)
            then ((⌊roundGrid (p.1 * (prices.length : ℚ))⌋₊ : Nat) : Int) + 1
            else ((⌊roundGrid (p.2 * (prices.length : ℚ))⌋₊ : Nat) : Int)) := by
  obtain ⟨ha_lt, hab, hb_le⟩ := index_bounds p prices.length hpos hlen hv
  obtain ⟨-, -, h0, h12, h1⟩ := hv
  have hs : bucketStart cvt prices (Target.ofRat p)
      = ((⌊roundGrid (p.1 * (prices.length : ℚ))⌋₊ : Nat) : Int) :=
    toInt_mul_rnd cvt p.1 prices.length h0 (le_trans h12.le h1) hlen
  have he0 : F64.toInt cvt ((Target.ofRat p).End.mul (F64.rnd (prices.length : ℚ)))
      = ((⌊roundGrid (p.2 * (prices.length : ℚ))⌋₊ : Nat) : Int) :=
    toInt_mul_rnd cvt p.2 prices.length (le_trans h0 h12.le) h1 hlen
  have hN2 : ((prices.length : Nat) : Int) < 2 ^ 53 := by exact_mod_cast hlen
  refine ⟨hs, ?_⟩
  simp only [bucketEnd, hs, he0]
  generalize ⌊roundGrid (p.1 * (prices.length : ℚ))⌋₊ = a at ha_lt hab
  generalize ⌊roundGrid (p.2 * (prices.length : ℚ))⌋₊ = b0 at hab hb_le
  rw [wrap64_eq ((b0 : Int) - (a : Int)) (by omega) (by omega)]
  by_cases heq : a = b0
  · subst heq
    simp only [sub_self, if_true]
    exact wrap64_eq _ (by omega) (by omega)
  · have h1 : ¬ ((b0 : Int) - (a : Int) = 0) := by omega
    have h2 : ¬ ((a : Int) = (b0 : Int)) := by omega
    simp only [h1, h2, if_false]

/-- C13, as stated, fails. On a pool of 5 fees and the target `{0.6, 1}` of main.go
the loop body starts at index 3, reads `prices[3]` and `prices[4]` and divides by 2
(estimate 5500), while `floor(start * N)` on the exact product is 2, for which the
claim has the reads `prices[2 .. 5)` and the divisor 3. Taking the fraction as the
decimal of the program text does not help: on a pool of 50 fees and the target
`{0.58, 1}` the loop body starts at index 28, and `floor(58 / 100 * 50)` is 29. -/
theorem bucketStart_rounds_product :
    (bucketStart (fun _ => 0) [1, 10, 100, 1000, 10000] (Target.ofRat (float06, 1)) = 3
      ∧ bucketEnd (fun _ => 0) [1, 10, 100, 1000, 10000] (Target.ofRat (float06, 1)) = 5
      ∧ bucket (fun _ => 0) [1, 10, 100, 1000, 10000] (Target.ofRat (float06, 1)) = some 5500
      ∧ ⌊float06 * (([1, 10, 100, 1000, 10000] : List Int).length : ℚ)⌋ = 2)
    ∧ (bucketStart (fun _ => 0) fiftyPool (Target.ofRat (float058, 1)) = 28
      ∧ ⌊(58 / 100 : ℚ) * (fiftyPool.length : ℚ)⌋ = 29) := by
  constructor
  · have hv : validBounds (float06, (1 : ℚ)) :=
      ⟨isFloat64_float06, isFloat64_one, by norm_num [float06], by norm_num [float06],
        by norm_num⟩
    have h := bucketStart_bucketEnd_eq (fun _ => 0) [1, 10, 100, 1000, 10000] (float06, 1)
      (by simp) (by simp) hv
    have h5 : roundGrid 5 = 5 := by
      simpa using roundGrid_natCast 5 (by norm_num)
    have e1 : ⌊roundGrid ((float06, (1 : ℚ)).1
        * (([1, 10, 100, 1000, 10000] : List Int).length : ℚ))⌋₊ = 3 := by
      norm_num [roundGrid_float06_mul_five]
    have e2 : ⌊roundGrid ((float06, (1 : ℚ)).2
        * (([1, 10, 100, 1000, 10000] : List Int).length : ℚ))⌋₊ = 5 := by
      norm_num [h5]
    rw [e1, e2] at h
    have hs : bucketStart (fun _ => 0) [1, 10, 100, 1000, 10000]
        (Target.ofRat (float06, 1)) = 3 := by simpa using h.1
    have he : bucketEnd (fun _ => 0) [1, 10, 100, 1000, 10000]
        (Target.ofRat (float06, 1)) = 5 := by simpa using h.2
    refine ⟨hs, he, ?_, ?_⟩
    · rw [bucket_eq, hs, he]
      decide
    · rw [Int.floor_eq_iff]
      norm_num [float06]
  · have hl : fiftyPool.length = 50 := rfl
    have hv : validBounds (float058, (1 : ℚ)) :=
      ⟨isFloat64_float058, isFloat64_one, by norm_num [float058], by norm_num [float058],
        by norm_num⟩
    have h := (bucketStart_bucketEnd_eq (fun _ => 0) fiftyPool (float058, 1)
      (by simp [hl]) (by simp [hl]) hv).1
    have hf : ⌊(29 : ℚ) - 1 / 2 ^ 48⌋₊ = 28 := by
      rw [Nat.floor_eq_iff (by norm_num)]; norm_num
    have e1 : ⌊roundGrid ((float058, (1 : ℚ)).1 * (fiftyPool.length : ℚ))⌋₊ = 28 := by
      simp only [hl, Nat.cast_ofNat, roundGrid_float058_mul_fifty, hf]
    rw [e1] at h
    refine ⟨by simpa using h, ?_⟩
    rw [hl, Int.floor_eq_iff]
    norm_num

/-- C13, amended. For a non-empty pool of `N < 2 ^ 53` fees and a target whose bounds
are `float64` values with `0 <= start < end <= 1`, the `start` of `estimate` is
`a = floor(fl(start * N))`, its `end` is `b = floor(fl(end * N))`, or `a + 1` when
the two are equal, `fl` rounding the exact product to the nearest `float64` value,
and `0 <= a < b <= N`. Hence every read `prices[j]` with `a <= j < b` is in bounds,
the divisor `b - a` is positive, and the body of the loop does not panic. -/
theorem bucket_indices_in_bounds (cvt : F64 → Int) (prices : List Int) (p : ℚ × ℚ)
    (hpos : 0 < prices.length) (hlen : prices.length < 2 ^ 53) (hv : validBounds p) :
    bucketStart cvt prices (Target.ofRat p) = ⌊roundGrid (p.1 * (prices.length : ℚ))⌋
      ∧ bucketEnd cvt prices (Target.ofRat p)
          = (if ⌊roundGrid (p.1 * (prices.length : ℚ))⌋
                = ⌊roundGrid (p.2 * (prices.length : ℚ))⌋
              then ⌊roundGrid (p.1 * (prices.length : ℚ))⌋ + 1
              else ⌊roundGrid (p.2 * (prices.length : ℚ))⌋)
      ∧ 0 ≤ bucketStart cvt prices (Target.ofRat p)
      ∧ bucketStart cvt prices (Target.ofRat p) < bucketEnd cvt prices (Target.ofRat p)
      ∧ bucketEnd cvt prices (Target.ofRat p) ≤ (prices.length : Int)
      ∧ (∀ j : Int, bucketStart cvt prices (Target.ofRat p) ≤ j →
          j < bucketEnd cvt prices (Target.ofRat p) →
          0 ≤ j ∧ ∃ v, prices[j.toNat]? = some v)
      ∧ 0 < wrap64 (bucketEnd cvt prices (Target.ofRat p)
          - bucketStart cvt prices (Target.ofRat p))
      ∧ ∃ v, bucket cvt prices (Target.ofRat p) = some v := by
  obtain ⟨ha_lt, hab, hb_le⟩ := index_bounds p prices.length hpos hlen hv
  obtain ⟨hs, he⟩ := bucketStart_bucketEnd_eq cvt prices p hpos hlen hv
  have hq1 : 0 ≤ p.1 * (prices.length : ℚ) := mul_nonneg hv.2.2.1 (Nat.cast_nonneg _)
  have hq2 : 0 ≤ p.2 * (prices.length : ℚ) :=
    mul_nonneg (le_trans hv.2.2.1 hv.2.2.2.1.le) (Nat.cast_nonneg _)
  have hN2 : ((prices.length : Nat) : Int) < 2 ^ 53 := by exact_mod_cast hlen
  have hf1 := Int.natCast_floor_eq_floor (roundGrid_nonneg _ hq1)
  have hf2 := Int.natCast_floor_eq_floor (roundGrid_nonneg _ hq2)
  rw [← hf1, ← hf2]
  generalize ⌊roundGrid (p.1 * (prices.length : ℚ))⌋₊ = a at ha_lt hab hs he
  generalize ⌊roundGrid (p.2 * (prices.length : ℚ))⌋₊ = b0 at hab hb_le he
  have hlt : (a : Int) < (if (a : Int) = (b0 : Int) then (a : Int) + 1 else (b0 : Int)) := by
    split <;> omega
  have hle : (if (a : Int) = (b0 : Int) then (a : Int) + 1 else (b0 : Int))
      ≤ (prices.length : Int) := by
    split <;> omega
  have hw : wrap64 ((if (a : Int) = (b0 : Int) then (a : Int) + 1 else (b0 : Int)) - (a : Int))
      = (if (a : Int) = (b0 : Int) then (a : Int) + 1 else (b0 : Int)) - (a : Int) :=
    wrap64_eq _ (by omega) (by omega)
  refine ⟨hs, he, ?_, ?_, ?_, ?_, ?_, ?_⟩
  · rw [hs]; omega
  · rw [hs, he]; exact hlt
  · rw [he]; exact hle
  · intro j hj1 hj2
    rw [hs] at hj1
    rw [he] at hj2
    refine ⟨by omega, ?_⟩
    have hj : j.toNat < prices.length := by omega
    exact ⟨prices[j.toNat], List.getElem?_eq_getElem hj⟩
  · rw [hs, he, hw]; omega
  · rw [bucket_eq, hs, he, hw]
    generalize hb : (if (a : Int) = (b0 : Int) then (a : Int) + 1 else (b0 : Int)) = b
      at hlt hle
    obtain ⟨k, hk⟩ : ∃ k : Nat, b = (k : Int) := ⟨b.toNat, by omega⟩
    subst hk
    have hk2 : ((k : Int) - (a : Int)).toNat = k - a := by omega
    rw [hk2, sumLoop_eq prices (k - a) a 0 (by omega)]
    have hnz : ¬ ((k : Int) - (a : Int) = 0) := by omega
    simp only [hnz, if_false]
    exact ⟨_, rfl⟩

/-- C13, witness: the pool of the test and the target `{0.5, 1}`: indices 3 to 7. -/
theorem bucket_indices_in_bounds_witness :
    bucketStart (fun _ => 0) [10, 25, 30, 35, 35, 40, 45] (Target.ofRat (1 / 2, 1)) = 3
      ∧ bucketEnd (fun _ => 0) [10, 25, 30, 35, 35, 40, 45] (Target.ofRat (1 / 2, 1)) = 7
      ∧ ∃ v, bucket (fun _ => 0) [10, 25, 30, 35, 35, 40, 45] (Target.ofRat (1 / 2, 1))
          = some v := by
  have h := bucket_indices_in_bounds (fun _ => 0) [10, 25, 30, 35, 35, 40, 45] (1 / 2, 1)
    (by simp) (by simp)
    ⟨isFloat64_half, isFloat64_one, by norm_num, by norm_num, by norm_num⟩
  have h7 : roundGrid 7 = 7 := by
    simpa using roundGrid_natCast 7 (by norm_num)
  have h72 : roundGrid (7 / 2) = 7 / 2 :=
    roundGrid_of_eq (7 / 2) 7 (-1) (by norm_num) (by norm_num) (by norm_num)
  have hf : ⌊(7 : ℚ) / 2⌋ = 3 := by
    rw [Int.floor_eq_iff]; norm_num
  have h1 : ⌊roundGrid (((1 / 2, 1) : ℚ × ℚ).1
      * (([10, 25, 30, 35, 35, 40, 45] : List Int).length : ℚ))⌋ = 3 := by
    norm_num [h72, hf]
  have h2 : ⌊roundGrid (((1 / 2, 1) : ℚ × ℚ).2
      * (([10, 25, 30, 35, 35, 40, 45] : List Int).length : ℚ))⌋ = 7 := by
    norm_num [h7]
  rw [h1, h2] at h
  exact ⟨h.1, by simpa using h.2.1, h.2.2.2.2.2.2.2⟩

/-- The bound `2 ^ 53` on the size of the pool cannot be dropped from the model: for
a pool of `2 ^ 53 + 3` fees `float64(nprices)` is `2 ^ 53 + 4`, and for the target
`{0, 1}` the loop of the sum runs to the index `2 ^ 53 + 3`, which is out of range. -/
theorem bucket_out_of_range_beyond_two_pow_53 (cvt : F64 → Int) (prices : List Int)
    (hlen : prices.length = 2 ^ 53 + 3) :
    bucket cvt prices (Target.ofRat (0, 1)) = none := by
  have hN : F64.rnd ((prices.length : Nat) : ℚ) = F64.fin (2 ^ 53 + 4) := by
    rw [hlen]
    unfold F64.rnd
    rw [roundGrid_two_pow_53_add_three, if_neg (by norm_num), if_neg (by norm_num)]
  have hfix : roundGrid ((2 : ℚ) ^ 53 + 4) = 2 ^ 53 + 4 :=
    roundGrid_of_eq _ (2 ^ 52 + 2) 1 (by norm_num) (by norm_num) (by norm_num)
  have hs : F64.toInt cvt ((F64.fin 0).mul (F64.fin (2 ^ 53 + 4))) = 0 := by
    have h1 : ¬ ((2 : ℚ) ^ 1024 ≤ 0) := by norm_num
    have h2 : ¬ ((0 : ℚ) ≤ -(2 : ℚ) ^ 1024) := by norm_num
    simp only [F64.mul, zero_mul, F64.rnd, roundGrid_zero, h1, h2, if_false, F64.toInt,
      F64.trunc, le_refl, if_true, Int.floor_zero]
    rw [if_pos (by norm_num)]
  have hm : (F64.fin 1).mul (F64.fin (2 ^ 53 + 4)) = F64.fin (2 ^ 53 + 4) := by
    have h1 : ¬ ((2 : ℚ) ^ 1024 ≤ 2 ^ 53 + 4) := by norm_num
    have h2 : ¬ ((2 : ℚ) ^ 53 + 4 ≤ -(2 : ℚ) ^ 1024) := by norm_num
    simp only [F64.mul, one_mul, F64.rnd, hfix, h1, h2, if_false]
  have hfl : ⌊(2 : ℚ) ^ 53 + 4⌋ = 2 ^ 53 + 4 := by
    rw [Int.floor_eq_iff]
    norm_num
  have htr : F64.trunc ((2 : ℚ) ^ 53 + 4) = 2 ^ 53 + 4 := by
    have h3 : (0 : ℚ) ≤ 2 ^ 53 + 4 := by norm_num
    unfold F64.trunc
    rw [if_pos h3, hfl]
  have he : F64.toInt cvt (F64.fin (2 ^ 53 + 4)) = 2 ^ 53 + 4 := by
    unfold F64.toInt
    simp only [htr]
    rw [if_pos]
    constructor <;> omega
  have hw : wrap64 ((2 : Int) ^ 53 + 4 - 0) = 2 ^ 53 + 4 := by
    rw [wrap64_eq _ (by omega) (by omega)]
    omega
  have hk : ((2 : Int) ^ 53 + 4 - 0).toNat = 2 ^ 53 + 4 := by
    omega
  simp only [bucket, Target.ofRat, hN, hs, hm, he]
  rw [hw, if_neg (by omega), hk,
    sumLoop_eq_none prices _ 0 0 (le_refl _) (Nat.zero_le _) (by
      rw [hlen]
      omega)]

/-! ## C14: the estimates of successive buckets -/

/-- The estimates of a successful walk with a non-empty pool and valid targets, on
the pool as `estimate` sorts it. -/
theorem estimate_of_walk {σ : Type} (cvt : F64 → Int) (sampler : Sampler σ)
    (e : Estimator) (head tip1 : Hash) (w w1 : σ) (samples : List Sample)
    (targets : List (ℚ × ℚ))
    (htargets : e.targets = targets.map Target.ofRat)
    (hvalid : ∀ p ∈ targets, validBounds p)
    (hwalk : Walk sampler e.history.toNat head w samples tip1 w1)
    (hne : feePool samples ≠ [])
    (hlen : (feePool samples).length < 2 ^ 53) :
    Estimator.estimate cvt sampler e head w
      = (Outcome.ok (targets.map
          (fun p => specEstimate64 (sortPrices (feePool samples)) p.1 p.2)), w1) := by
  have hl : (sortPrices (feePool samples)).length = (feePool samples).length :=
    (List.perm_insertionSort _ _).length_eq
  have hpos : 0 < (feePool samples).length := List.length_pos.mpr hne
  have hw := walkPool_of_walk sampler e head tip1 w w1 samples hwalk
  have hnz : ¬ ((feePool samples).length = 0) := by omega
  unfold Estimator.estimate
  rw [hw]
  simp only [hnz, if_false]
  rw [htargets, estimatesLoop_eq_map64 cvt _ targets (by omega) (by omega) hvalid]

/-- An element of `S[a .. a + k)` is `S[i]` for an index `i` of that range. -/
theorem mem_take_drop_index (S : List Int) (a k : Nat) (x : Int)
    (hx : x ∈ (S.drop a).take k) :
    ∃ (i : Nat) (h : i < S.length), a ≤ i ∧ i < a + k ∧ S[i] = x := by
  obtain ⟨i, hm, rfl⟩ := List.mem_take_iff_getElem.mp hx
  have hm2 : i < k ∧ i < (S.drop a).length := by
    exact Nat.lt_min.mp hm
  have hi : a + i < S.length := by
    have := hm2.2
    rw [List.length_drop] at this
    omega
  exact ⟨a + i, hi, by omega, by omega, by rw [List.getElem_drop]⟩

/-- The estimate with rounded products as a quotient of integers. -/
theorem specEstimate64_eq_ediv (S : List Int) (start stop : ℚ) :
    specEstimate64 S start stop =
      (((S.drop ⌊roundGrid (start * (S.length : ℚ))⌋₊).take
          ((if ⌊roundGrid (start * (S.length : ℚ))⌋₊ = ⌊roundGrid (stop * (S.length : ℚ))⌋₊
              then ⌊roundGrid (start * (S.length : ℚ))⌋₊ + 1
              else ⌊roundGrid (stop * (S.length : ℚ))⌋₊)
            - ⌊roundGrid (start * (S.length : ℚ))⌋₊)).sum)
        / (((if ⌊roundGrid (start * (S.length : ℚ))⌋₊ = ⌊roundGrid (stop * (S.length : ℚ))⌋₊
              then ⌊roundGrid (start * (S.length : ℚ))⌋₊ + 1
              else ⌊roundGrid (stop * (S.length : ℚ))⌋₊)
            - ⌊roundGrid (start * (S.length : ℚ))⌋₊ : Nat) : Int) := by
  simp only [specEstimate64, Rat.floor_intCast_div_natCast]

/-- On a sorted pool, the estimate of a valid target is at most the estimate of a
valid target that starts where the first one ends, or later. -/
theorem specEstimate64_mono (S : List Int) (hS : S.Sorted (fun a b => a ≤ b))
    (hpos : 0 < S.length) (hlen : S.length < 2 ^ 53) (p1 p2 : ℚ × ℚ)
    (hv1 : validBounds p1) (hv2 : validBounds p2) (h12 : p1.2 ≤ p2.1) :
    specEstimate64 S p1.1 p1.2 ≤ specEstimate64 S p2.1 p2.2 := by
  obtain ⟨ha1, hab1, hb1⟩ := index_bounds p1 S.length hpos hlen hv1
  obtain ⟨ha2, hab2, hb2⟩ := index_bounds p2 S.length hpos hlen hv2
  have hba : ⌊roundGrid (p1.2 * (S.length : ℚ))⌋₊ ≤ ⌊roundGrid (p2.1 * (S.length : ℚ))⌋₊ :=
    Nat.floor_mono (roundGrid_mono
      (mul_nonneg (le_trans hv1.2.2.1 hv1.2.2.2.1.le) (Nat.cast_nonneg _))
      (mul_le_mul_of_nonneg_right h12 (Nat.cast_nonneg _)))
  rw [specEstimate64_eq_ediv, specEstimate64_eq_ediv]
  generalize ⌊roundGrid (p1.1 * (S.length : ℚ))⌋₊ = a1 at ha1 hab1
  generalize ⌊roundGrid (p1.2 * (S.length : ℚ))⌋₊ = c1 at hab1 hb1 hba
  generalize ⌊roundGrid (p2.1 * (S.length : ℚ))⌋₊ = a2 at ha2 hab2 hba
  generalize ⌊roundGrid (p2.2 * (S.length : ℚ))⌋₊ = c2 at hab2 hb2
  generalize hb1def : (if a1 = c1 then a1 + 1 else c1) = b1
  generalize hb2def : (if a2 = c2 then a2 + 1 else c2) = b2
  have h1 : a1 < b1 ∧ b1 ≤ S.length ∧ b1 ≤ a2 + 1 := by
    rw [← hb1def]; split <;> omega
  have h2 : a2 < b2 ∧ b2 ≤ S.length := by
    rw [← hb2def]; split <;> omega
  have hm : b1 - 1 < S.length := by omega
  have hsorted : ∀ (i j : Nat) (hi : i < S.length) (hj : j < S.length), i ≤ j →
      S[i] ≤ S[j] := by
    intro i j hi hj hij
    have := hS.rel_get_of_le (a := ⟨i, hi⟩) (b := ⟨j, hj⟩) hij
    simpa using this
  have hlen1 : ((S.drop a1).take (b1 - a1)).length = b1 - a1 := by
    rw [List.length_take, List.length_drop]; omega
  have hlen2 : ((S.drop a2).take (b2 - a2)).length = b2 - a2 := by
    rw [List.length_take, List.length_drop]; omega
  have hsum1 : ((S.drop a1).take (b1 - a1)).sum ≤ S[b1 - 1] * ((b1 - a1 : Nat) : Int) := by
    have h := List.sum_le_card_nsmul ((S.drop a1).take (b1 - a1)) S[b1 - 1] (by
      intro x hx
      obtain ⟨i, hi, hai, hik, rfl⟩ := mem_take_drop_index S a1 (b1 - a1) x hx
      exact hsorted i (b1 - 1) hi hm (by omega))
    rw [hlen1, nsmul_eq_mul, mul_comm] at h
    exact h
  have hsum2 : S[b1 - 1] * ((b2 - a2 : Nat) : Int) ≤ ((S.drop a2).take (b2 - a2)).sum := by
    have h := List.card_nsmul_le_sum ((S.drop a2).take (b2 - a2)) S[b1 - 1] (by
      intro x hx
      obtain ⟨i, hi, hai, hik, rfl⟩ := mem_take_drop_index S a2 (b2 - a2) x hx
      exact hsorted (b1 - 1) i hm hi (by omega))
    rw [hlen2, nsmul_eq_mul, mul_comm] at h
    exact h
  have hn1 : (0 : Int) < ((b1 - a1 : Nat) : Int) := by omega
  have hn2 : (0 : Int) < ((b2 - a2 : Nat) : Int) := by omega
  exact le_trans (Int.ediv_le_of_le_mul hn1 hsum1) (Int.le_ediv_of_mul_le hn2 hsum2)

/-- C14. For a walk whose sampler calls all succeed with a non-empty pool (of fewer
than `2 ^ 53` fees) and valid targets, whose bounds are `float64` values, `estimate`
returns one value per target, and for any two targets `t1`, `t2` of the list with
`t1.end <= t2.start` the value of `t1` is at most the value of `t2`, widened buckets
included. The products are rounded as `float64` rounds them. -/
theorem estimates_monotone {σ : Type} (cvt : F64 → Int) (sampler : Sampler σ)
    (e : Estimator) (head tip1 : Hash) (w w1 : σ) (samples : List Sample)
    (targets : List (ℚ × ℚ))
    (htargets : e.targets = targets.map Target.ofRat)
    (hvalid : ∀ p ∈ targets, validBounds p)
    (hwalk : Walk sampler e.history.toNat head w samples tip1 w1)
    (hne : feePool samples ≠ [])
    (hlen : (feePool samples).length < 2 ^ 53) :
    ∃ estimates, Estimator.estimate cvt sampler e head w = (Outcome.ok estimates, w1)
      ∧ estimates.length = targets.length
      ∧ ∀ (i j : Nat) (t1 t2 : ℚ × ℚ) (v1 v2 : Int),
          targets[i]? = some t1 → targets[j]? = some t2 → t1.2 ≤ t2.1 →
          estimates[i]? = some v1 → estimates[j]? = some v2 → v1 ≤ v2 := by
  refine ⟨_, estimate_of_walk cvt sampler e head tip1 w w1 samples targets htargets hvalid
    hwalk hne hlen, by simp, ?_⟩
  intro i j t1 t2 v1 v2 ht1 ht2 h12 hv1 hv2
  rw [List.getElem?_map, ht1] at hv1
  rw [List.getElem?_map, ht2] at hv2
  simp only [Option.map_some', Option.some.injEq] at hv1 hv2
  subst hv1 hv2
  have hl : (sortPrices (feePool samples)).length = (feePool samples).length :=
    (List.perm_insertionSort _ _).length_eq
  have hpos : 0 < (sortPrices (feePool samples)).length := by
    rw [hl]
    exact List.length_pos.mpr hne
  have hlen2 : (sortPrices (feePool samples)).length < 2 ^ 53 := by
    rw [hl]
    exact hlen
  exact specEstimate64_mono _ (List.sorted_insertionSort _ _) hpos hlen2 t1 t2
    (hvalid t1 (List.getElem?_mem ht1)) (hvalid t2 (List.getElem?_mem ht2)) h12

/-- C14, witness: the chain of the test with the three targets of main.go, as the
`float64` values of `0.3` and `0.6`. -/
theorem estimates_monotone_witness :
    ∃ estimates,
      Estimator.estimate (fun _ => 0) (samplerMock testSamples) mainTargetsEstimator 102 0
          = (Outcome.ok estimates, 2)
        ∧ estimates.length = [((0 : ℚ), float03), (float03, float06), (float06, 1)].length
        ∧ ∀ (i j : Nat) (t1 t2 : ℚ × ℚ) (v1 v2 : Int),
            [((0 : ℚ), float03), (float03, float06), (float06, 1)][i]? = some t1 →
            [((0 : ℚ), float03), (float03, float06), (float06, 1)][j]? = some t2 →
            t1.2 ≤ t2.1 →
            estimates[i]? = some v1 → estimates[j]? = some v2 → v1 ≤ v2 :=
  estimates_monotone (fun _ => 0) (samplerMock testSamples) mainTargetsEstimator 102 100 0 2
    [{ header := { ParentHash := 101 }, prices := [35, 25, 45, 35] },
     { header := { ParentHash := 100 }, prices := [40, 30, 10] }]
    [(0, float03), (float03, float06), (float06, 1)] rfl
    (by
      intro p hp
      simp only [List.mem_cons, List.mem_singleton, List.not_mem_nil, or_false] at hp
      rcases hp with rfl | rfl | rfl
      · exact ⟨isFloat64_zero, isFloat64_float03, by norm_num, by norm_num [float03],
          by norm_num [float03]⟩
      · exact ⟨isFloat64_float03, isFloat64_float06, by norm_num [float03],
          by norm_num [float03, float06], by norm_num [float06]⟩
      · exact ⟨isFloat64_float06, isFloat64_one, by norm_num [float06],
          by norm_num [float06], by norm_num⟩)
    (Walk.next rfl (Walk.next rfl (Walk.done _ _)))
    (by simp [feePool]) (by simp [feePool])

/-! ## C12: the sample of fetch -/

/-- When every transaction yields a tip and a sender, the loop over the transactions
appends the fees of the qualifying ones, in order. -/
theorem txLoop_eq_filterMap (minPrice baseFee : Int) (coinbase : Nat) (txs : List Tx)
    (pricesHeap : List Int)
    (hok : ∀ tx ∈ txs, (∃ tip, tx.tip = Except.ok tip) ∧ (∃ sender, tx.sender = Except.ok sender)) :
    txLoop minPrice baseFee coinbase txs pricesHeap
      = Except.ok (pricesHeap ++ txs.filterMap (qualifyingFee minPrice baseFee coinbase)) := by
  induction txs generalizing pricesHeap with
  | nil => simp [txLoop]
  | cons tx txs ih =>
    obtain ⟨⟨tip, htip⟩, ⟨sender, hsender⟩⟩ := hok tx (List.mem_cons_self _ _)
    have ih2 := fun acc => ih acc (fun t ht => hok t (List.mem_cons_of_mem _ ht))
    have hqf : qualifyingFee minPrice baseFee coinbase tx
        = if minPrice ≤ baseFee + tip ∧ sender ≠ coinbase then some (baseFee + tip)
          else none := by
      simp only [qualifyingFee, htip, hsender]
    by_cases hp : baseFee + tip < minPrice
    · have hq : ¬ (minPrice ≤ baseFee + tip ∧ sender ≠ coinbase) := fun h => by omega
      rw [List.filterMap_cons, hqf, if_neg hq]
      simp only [txLoop, htip, hp, if_true]
      exact ih2 _
    · by_cases hs : sender = coinbase
      · have hq : ¬ (minPrice ≤ baseFee + tip ∧ sender ≠ coinbase) := fun h => h.2 hs
        rw [List.filterMap_cons, hqf, if_neg hq]
        simp only [txLoop, htip, hsender, hp, if_false, hs, if_true]
        exact ih2 _
      · have hq : minPrice ≤ baseFee + tip ∧ sender ≠ coinbase := ⟨by omega, hs⟩
        rw [List.filterMap_cons, hqf, if_pos hq]
        simp only [txLoop, htip, hsender, hp, if_false, hs]
        rw [ih2, List.append_assoc, List.singleton_append]

/-- The loop of `popLoop` ends: it appends the last elements of the heap, the last
one first, until `prices` has `size` elements or the heap is empty. -/
theorem popLoop_eq_take (size : Int) (prices pricesHeap : List Int) :
    popLoop size prices pricesHeap
      = some (prices ++ pricesHeap.reverse.take (size - (prices.length : Int)).toNat) := by
  induction pricesHeap using List.reverseRecOn generalizing prices with
  | nil =>
    rw [popLoop_eq]
    simp
  | append_singleton rest value ih =>
    rw [popLoop_eq]
    by_cases hlt : (prices.length : Int) < size
    · have hpop : bigIntHeap.Pop (rest ++ [value]) = some (value, rest) := by
        have hlen : (((rest ++ [value]).length : Int) - 1).toNat = rest.length := by
          simp
        have hnn : ¬ (((rest ++ [value]).length : Int) - 1 < 0) := by
          simp
        simp only [bigIntHeap.Pop, hnn, if_false, hlen]
        simp
      have hguard : (prices.length : Int) < size ∧ (rest ++ [value]).length > 0 :=
        ⟨hlt, by simp⟩
      simp only [hguard, and_self, if_true, hpop]
      rw [ih]
      obtain ⟨k, hk⟩ : ∃ k : Nat, (size - (prices.length : Int)).toNat = k + 1 :=
        ⟨(size - (prices.length : Int)).toNat - 1, by omega⟩
      have hk2 : (size - ((prices ++ [value]).length : Int)).toNat = k := by
        simp only [List.length_append, List.length_singleton, Nat.cast_add, Nat.cast_one]
        omega
      rw [hk, hk2, List.reverse_append, List.reverse_singleton, List.singleton_append,
        List.take_succ_cons, List.append_assoc, List.singleton_append]
    · have hz : (size - (prices.length : Int)).toNat = 0 := by omega
      simp [hlt, hz]

theorem map_filter_isSome {α β : Type} (f : α → Option β) (l : List α) :
    (l.filter (fun x => (f x).isSome)).map f = (l.filterMap f).map some := by
  induction l with
  | nil => rfl
  | cons x l ih =>
    cases hx : f x with
    | none => simp [List.filter_cons, List.filterMap_cons, hx, ih]
    | some y => simp [List.filter_cons, List.filterMap_cons, hx, ih]

/-- C12. For a block whose transactions all yield a tip and a sender, and a size that
is not negative, `fetch` returns a sample with the header of the block and
`min(size, q)` fees, `q` being the number of qualifying transactions; the fees, read
from the last to the first, are the fees of transactions `chosen` of the block, each
taken once and in the order of the block, that qualify: fee (base fee plus tip) at
least `minPrice` and sender other than the coinbase. -/
theorem fetch_sample (s : MinimumSampler) (block : Block) (hsize : 0 ≤ s.size)
    (hok : ∀ tx ∈ block.txs,
      (∃ tip, tx.tip = Except.ok tip) ∧ (∃ sender, tx.sender = Except.ok sender)) :
    ∃ (prices : List Int) (chosen : List Tx),
      MinimumSampler.fetch s (Except.ok block)
          = Outcome.ok { header := block.header, prices := prices }
        ∧ (prices.length : Int)
            = min s.size
                ((block.txs.filterMap
                  (qualifyingFee s.minPrice block.baseFee block.coinbase)).length : Int)
        ∧ chosen.Sublist block.txs
        ∧ chosen.map (qualifyingFee s.minPrice block.baseFee block.coinbase)
            = prices.reverse.map some := by
  have htx := txLoop_eq_filterMap s.minPrice block.baseFee block.coinbase block.txs [] hok
  rw [List.nil_append] at htx
  have hpop := popLoop_eq_take s.size []
    (block.txs.filterMap (qualifyingFee s.minPrice block.baseFee block.coinbase))
  simp only [List.length_nil, Nat.cast_zero, sub_zero, List.nil_append] at hpop
  have hneg : ¬ (s.size < 0) := by omega
  have hsub : ((block.txs.filterMap
        (qualifyingFee s.minPrice block.baseFee block.coinbase)).reverse.take
          s.size.toNat).reverse.Sublist
      (block.txs.filterMap (qualifyingFee s.minPrice block.baseFee block.coinbase)) := by
    have h := (List.take_sublist s.size.toNat
      (block.txs.filterMap
        (qualifyingFee s.minPrice block.baseFee block.coinbase)).reverse).reverse
    rwa [List.reverse_reverse] at h
  obtain ⟨l, hl, hleq⟩ := List.sublist_filterMap_iff.mp hsub
  refine ⟨(block.txs.filterMap
      (qualifyingFee s.minPrice block.baseFee block.coinbase)).reverse.take s.size.toNat,
    l.filter (fun tx =>
      (qualifyingFee s.minPrice block.baseFee block.coinbase tx).isSome), ?_, ?_, ?_, ?_⟩
  · simp only [MinimumSampler.fetch, htx, hneg, if_false, hpop]
  · rw [List.length_take, List.length_reverse]
    omega
  · exact (List.filter_sublist l).trans hl
  · rw [map_filter_isSome, ← hleq]

/-- C12, witness: `mixedBlock` with the floor 8 and the size 5. -/
theorem fetch_sample_witness :
    ∃ (prices : List Int) (chosen : List Tx),
      MinimumSampler.fetch { size := 5, minPrice := 8 } (Except.ok mixedBlock)
          = Outcome.ok { header := mixedBlock.header, prices := prices }
        ∧ (prices.length : Int)
            = min 5 ((mixedBlock.txs.filterMap
                (qualifyingFee 8 mixedBlock.baseFee mixedBlock.coinbase)).length : Int)
        ∧ chosen.Sublist mixedBlock.txs
        ∧ chosen.map (qualifyingFee 8 mixedBlock.baseFee mixedBlock.coinbase)
            = prices.reverse.map some :=
  fetch_sample { size := 5, minPrice := 8 } mixedBlock (by decide)
    (by
      intro tx htx
      simp only [mixedBlock, List.mem_cons, List.mem_singleton, List.not_mem_nil,
        or_false] at htx
      rcases htx with rfl | rfl | rfl | rfl <;> exact ⟨⟨_, rfl⟩, ⟨_, rfl⟩⟩)

/-! ## C11: the waiters that receive an outcome -/

/-- What `asyncGasPrices` does to the channels. -/
theorem asyncGasPrices_channels {σ : Type} (head : Hash) (w : World σ) :
    (asyncGasPrices head w).1 = w.nextChan
      ∧ (asyncGasPrices head w).2.nextChan = w.nextChan + 1
      ∧ ((∃ r, (asyncGasPrices head w).2.sent = w.sent ++ [(w.nextChan, r)]
            ∧ (asyncGasPrices head w).2.e.chans = w.e.chans)
        ∨ ((asyncGasPrices head w).2.sent = w.sent
            ∧ (asyncGasPrices head w).2.e.chans = w.e.chans ++ [w.nextChan])) := by
  unfold asyncGasPrices
  by_cases h1 : w.e.lastHead = head
  · by_cases h2 : w.e.lastPrices = none
    · simp [h1, h2]
    · simp [h1, h2]
  · simp [h1]

/-- What `broadcastGasPrices` does to the channels: nothing when a result is stale;
otherwise every channel of `chans` gets the outcome and `chans` is emptied. -/
theorem broadcastGasPrices_channels {σ : Type} (cvt : F64 → Int) (sampler : Sampler σ)
    (head : Hash) (w w1 : World σ) (h : broadcastGasPrices cvt sampler head w = some w1) :
    w1.nextChan = w.nextChan
      ∧ ((∃ prices s1, Estimator.estimate cvt sampler w.e head w.sampler
              = (Outcome.ok prices, s1)
            ∧ w.e.lastHead ≠ head ∧ w1.sent = w.sent ∧ w1.e.chans = w.e.chans)
        ∨ (∃ r, w1.sent = w.sent ++ w.e.chans.map (fun ch => (ch, r)) ∧ w1.e.chans = []
            ∧ ((∃ err s1, Estimator.estimate cvt sampler w.e head w.sampler
                    = (Outcome.error err, s1)
                  ∧ r = { prices := none, err := some err })
              ∨ (∃ prices s1, Estimator.estimate cvt sampler w.e head w.sampler
                    = (Outcome.ok prices, s1)
                  ∧ w.e.lastHead = head ∧ r = { prices := some prices, err := none })))) := by
  unfold broadcastGasPrices at h
  rcases hest : Estimator.estimate cvt sampler w.e head w.sampler with ⟨r, s1⟩
  rw [hest] at h
  cases r with
  | panic => simp at h
  | error err =>
    simp only [Option.some.injEq] at h
    subst h
    exact ⟨rfl, Or.inr ⟨_, rfl, rfl, Or.inl ⟨err, s1, rfl, rfl⟩⟩⟩
  | ok prices =>
    simp only at h
    by_cases hh : w.e.lastHead = head
    · simp only [hh, ne_eq, not_true_eq_false, if_false, Option.some.injEq] at h
      subst h
      exact ⟨rfl, Or.inr ⟨{ prices := some prices, err := none },
        by simp [clonePrices_eq], rfl, Or.inr ⟨prices, s1, rfl, hh, rfl⟩⟩⟩
    · simp only [ne_eq, hh, not_false_eq_true, if_true, Option.some.injEq] at h
      subst h
      exact ⟨rfl, Or.inl ⟨prices, s1, rfl, hh, rfl, rfl⟩⟩

theorem step_channelsDistinct {σ : Type} (cvt : F64 → Int) (sampler : Sampler σ)
    (w w1 : World σ) (ev : Event σ) (hstep : step cvt sampler w ev = some w1)
    (hinv : ChannelsDistinct w) : ChannelsDistinct w1 := by
  obtain ⟨hnd, hlt⟩ := hinv
  have hfresh : w.nextChan ∉ w.sent.map Prod.fst ++ w.e.chans := by
    intro hmem
    exact absurd (hlt _ hmem) (lt_irrefl _)
  cases ev with
  | request head =>
    simp only [step, Option.some.injEq] at hstep
    subst hstep
    obtain ⟨-, hn, ⟨r, hs, hc⟩ | ⟨hs, hc⟩⟩ := asyncGasPrices_channels head w
    · have hperm : (((asyncGasPrices head w).2.sent.map Prod.fst
          ++ (asyncGasPrices head w).2.e.chans)).Perm
          (w.nextChan :: (w.sent.map Prod.fst ++ w.e.chans)) := by
        rw [hs, hc, List.map_append, List.map_singleton, List.append_assoc]
        exact List.perm_middle
      refine ⟨hperm.nodup_iff.mpr (List.nodup_cons.mpr ⟨hfresh, hnd⟩), ?_⟩
      intro ch hch
      rw [hn]
      rcases List.mem_cons.mp (hperm.subset hch) with rfl | hmem
      · exact Nat.lt_succ_self _
      · exact Nat.lt_succ_of_lt (hlt ch hmem)
    · have hperm : (((asyncGasPrices head w).2.sent.map Prod.fst
          ++ (asyncGasPrices head w).2.e.chans)).Perm
          (w.nextChan :: (w.sent.map Prod.fst ++ w.e.chans)) := by
        rw [hs, hc, ← List.append_assoc]
        exact List.perm_append_singleton _ _
      refine ⟨hperm.nodup_iff.mpr (List.nodup_cons.mpr ⟨hfresh, hnd⟩), ?_⟩
      intro ch hch
      rw [hn]
      rcases List.mem_cons.mp (hperm.subset hch) with rfl | hmem
      · exact Nat.lt_succ_self _
      · exact Nat.lt_succ_of_lt (hlt ch hmem)
  | complete head =>
    simp only [step] at hstep
    split at hstep
    · cases hb : broadcastGasPrices cvt sampler head w with
      | none => simp [hb] at hstep
      | some w2 =>
        simp only [hb, Option.map_some', Option.some.injEq] at hstep
        subst hstep
        obtain ⟨hn, ⟨-, -, -, -, hs, hc⟩ | ⟨r, hs, hc, -⟩⟩ :=
          broadcastGasPrices_channels cvt sampler head w w2 hb
        · show (w2.sent.map Prod.fst ++ w2.e.chans).Nodup
            ∧ ∀ ch ∈ w2.sent.map Prod.fst ++ w2.e.chans, ch < w2.nextChan
          rw [hs, hc, hn]
          exact ⟨hnd, hlt⟩
        · show (w2.sent.map Prod.fst ++ w2.e.chans).Nodup
            ∧ ∀ ch ∈ w2.sent.map Prod.fst ++ w2.e.chans, ch < w2.nextChan
          have heq : w2.sent.map Prod.fst ++ w2.e.chans = w.sent.map Prod.fst ++ w.e.chans := by
            rw [hs, hc, List.map_append, List.map_map, List.append_nil]
            congr 1
            exact List.map_id _
          rw [heq, hn]
          exact ⟨hnd, hlt⟩
    · simp at hstep
  | env s =>
    simp only [step, Option.some.injEq] at hstep
    subst hstep
    exact ⟨hnd, hlt⟩

theorem run_channelsDistinct {σ : Type} (cvt : F64 → Int) (sampler : Sampler σ)
    (tr : List (Event σ)) (w w1 : World σ) (hrun : run cvt sampler w tr = some w1)
    (hinv : ChannelsDistinct w) : ChannelsDistinct w1 := by
  induction tr generalizing w with
  | nil =>
    simp only [run, Option.some.injEq] at hrun
    subst hrun
    exact hinv
  | cons ev tr ih =>
    simp only [run] at hrun
    cases hstep : step cvt sampler w ev with
    | none => simp [hstep] at hrun
    | some w2 =>
      simp only [hstep, Option.some_bind] at hrun
      exact ih w2 hrun (step_channelsDistinct cvt sampler w w2 ev hstep hinv)

/-- C11, as stated, fails: the request for head 101 gets channel 0 and the request
for head 7 gets channel 1; the computation for head 7 fails while 7 is `lastHead`,
and its error is sent on channel 0 as well as on channel 1. -/
theorem error_reaches_waiter_of_other_head :
    (asyncGasPrices 101 (World.start testEstimator (0 : Nat))).1 = 0
      ∧ run (fun _ => 0) (samplerMock testSamples) (World.start testEstimator 0)
          [Event.request 101, Event.request 7] = some pendingWorld
      ∧ ∃ w, step (fun _ => 0) (samplerMock testSamples) pendingWorld (Event.complete 7)
            = some w
          ∧ w.sent = [(0, { prices := none, err := some ErrBlockNotFound }),
                      (1, { prices := none, err := some ErrBlockNotFound })] := by
  refine ⟨rfl, rfl, ?_⟩
  have hest : Estimator.estimate (fun _ => 0) (samplerMock testSamples) pendingWorld.e 7 0
      = (Outcome.error ErrBlockNotFound, 1) := rfl
  refine ⟨{ e := { testEstimator with lastHead := 7 },
            sampler := 1, running := [101],
            sent := [(0, { prices := none, err := some ErrBlockNotFound }),
                     (1, { prices := none, err := some ErrBlockNotFound })],
            nextChan := 2 }, ?_, rfl⟩
  have hmem : (7 : Hash) ∈ pendingWorld.running := by decide
  have hsmp : pendingWorld.sampler = 0 := rfl
  simp only [step, hmem, if_true, broadcastGasPrices, hsmp, hest, Option.map_some']
  rfl

/-- C11, amended. In every state reached from a start without waiters, the channels
that got a value and the channels of `chans` (the waiters registered and not yet
answered) are pairwise distinct. When a computation for head `h` completes while
`lastHead = h`, its outcome, the error if it failed and the result if it succeeded,
is sent to every channel of `chans` and to no other channel, whichever head the
requests of these waiters named, and `chans` is emptied: no waiter gets a second
value. When a computation for `h` succeeds while `lastHead` is not `h`, its result is
sent to no channel and `chans` is kept. -/
theorem outcome_goes_to_pending_waiters {σ : Type} (cvt : F64 → Int) (sampler : Sampler σ)
    (e0 : Estimator) (s0 : σ) (hch : e0.chans = []) (tr : List (Event σ)) (w : World σ)
    (hrun : run cvt sampler (World.start e0 s0) tr = some w) :
    ChannelsDistinct w
      ∧ ∀ h w1, broadcastGasPrices cvt sampler h w = some w1 →
          (w.e.lastHead = h →
            ∃ r, w1.sent = w.sent ++ w.e.chans.map (fun ch => (ch, r)) ∧ w1.e.chans = []
              ∧ ((∃ err s1, Estimator.estimate cvt sampler w.e h w.sampler
                      = (Outcome.error err, s1)
                    ∧ r = { prices := none, err := some err })
                ∨ (∃ prices s1, Estimator.estimate cvt sampler w.e h w.sampler
                      = (Outcome.ok prices, s1)
                    ∧ r = { prices := some prices, err := none })))
            ∧ (w.e.lastHead ≠ h →
              ∀ prices s1, Estimator.estimate cvt sampler w.e h w.sampler
                  = (Outcome.ok prices, s1) →
                w1.sent = w.sent ∧ w1.e.chans = w.e.chans) := by
  constructor
  · refine run_channelsDistinct cvt sampler tr _ w hrun ?_
    simp [ChannelsDistinct, World.start, hch]
  · intro h w1 hb
    obtain ⟨-, hcases⟩ := broadcastGasPrices_channels cvt sampler h w w1 hb
    constructor
    · intro hh
      rcases hcases with ⟨-, -, -, hne, -⟩ | ⟨r, hs, hc, hr⟩
      · exact absurd hh hne
      · refine ⟨r, hs, hc, ?_⟩
        rcases hr with ⟨err, s1, hest, hr⟩ | ⟨prices, s1, hest, -, hr⟩
        · exact Or.inl ⟨err, s1, hest, hr⟩
        · exact Or.inr ⟨prices, s1, hest, hr⟩
    · intro hne prices s1 hest
      rcases hcases with ⟨-, -, -, -, hs, hc⟩ | ⟨r, -, -, hr⟩
      · exact ⟨hs, hc⟩
      · rcases hr with ⟨err, s2, hest2, -⟩ | ⟨prices2, s2, -, hh, -⟩
        · rw [hest] at hest2
          cases hest2
        · exact absurd hh hne

/-- C11, witness: the state after the requests for the heads 101 and 7 of the test. -/
theorem outcome_goes_to_pending_waiters_witness :
    ChannelsDistinct pendingWorld
      ∧ ∀ h w1, broadcastGasPrices (fun _ => 0) (samplerMock testSamples) h pendingWorld
            = some w1 →
          (pendingWorld.e.lastHead = h →
            ∃ r, w1.sent = pendingWorld.sent ++ pendingWorld.e.chans.map (fun ch => (ch, r))
              ∧ w1.e.chans = []
              ∧ ((∃ err s1, Estimator.estimate (fun _ => 0) (samplerMock testSamples)
                      pendingWorld.e h pendingWorld.sampler = (Outcome.error err, s1)
                    ∧ r = { prices := none, err := some err })
                ∨ (∃ prices s1, Estimator.estimate (fun _ => 0) (samplerMock testSamples)
                      pendingWorld.e h pendingWorld.sampler = (Outcome.ok prices, s1)
                    ∧ r = { prices := some prices, err := none })))
            ∧ (pendingWorld.e.lastHead ≠ h →
              ∀ prices s1, Estimator.estimate (fun _ => 0) (samplerMock testSamples)
                  pendingWorld.e h pendingWorld.sampler = (Outcome.ok prices, s1) →
                w1.sent = pendingWorld.sent ∧ w1.e.chans = pendingWorld.e.chans) :=
  outcome_goes_to_pending_waiters (fun _ => 0) (samplerMock testSamples) testEstimator 0 rfl
    [Event.request 101, Event.request 7] pendingWorld rfl

/-- The failure of a computation for a head that is no longer `lastHead`: after the
requests for the heads 7 and 102, the computation for head 7 fails and its error is
sent on channel 1, the channel of the request for head 102, whose own computation is
still running. -/
theorem stale_error_reaches_later_waiter :
    ∃ w, run (fun _ => 0) (samplerMock testSamples) (World.start testEstimator 0)
          [Event.request 7, Event.request 102, Event.complete 7] = some w
      ∧ w.e.lastHead = 102 ∧ w.running = [102] ∧ w.e.chans = []
      ∧ w.sent = [(0, { prices := none, err := some ErrBlockNotFound }),
                  (1, { prices := none, err := some ErrBlockNotFound })] := by
  have h12 : run (fun _ => 0) (samplerMock testSamples) (World.start testEstimator 0)
      [Event.request 7, Event.request 102]
      = some { e := { testEstimator with lastHead := 102, chans := [0, 1] },
               sampler := 0, running := [7, 102], sent := [], nextChan := 2 } := rfl
  have hest : Estimator.estimate (fun _ => 0) (samplerMock testSamples)
      { testEstimator with lastHead := 102, chans := [0, 1] } 7 0
      = (Outcome.error ErrBlockNotFound, 1) := rfl
  have h3 : step (fun _ => 0) (samplerMock testSamples)
      { e := { testEstimator with lastHead := 102, chans := [0, 1] },
        sampler := 0, running := [7, 102], sent := [], nextChan := 2 }
      (Event.complete 7)
      = some { e := { testEstimator with lastHead := 102 },
               sampler := 1, running := [102],
               sent := [(0, { prices := none, err := some ErrBlockNotFound }),
                        (1, { prices := none, err := some ErrBlockNotFound })],
               nextChan := 2 } := by
    have hmem : (7 : Hash) ∈ [7, 102] := by decide
    simp only [step, hmem, if_true, broadcastGasPrices, hest, Option.map_some']
    rfl
  refine ⟨{ e := { testEstimator with lastHead := 102 },
            sampler := 1, running := [102],
            sent := [(0, { prices := none, err := some ErrBlockNotFound }),
                     (1, { prices := none, err := some ErrBlockNotFound })],
            nextChan := 2 }, ?_, rfl, rfl, rfl, rfl⟩
  have happ := run_append (fun _ => 0) (samplerMock testSamples) (World.start testEstimator 0)
    [Event.request 7, Event.request 102] [Event.complete 7]
  simp only [List.cons_append, List.nil_append] at happ
  rw [happ, h12]
  simp only [Option.some_bind, run, h3]

end Gasprice
